import Mathlib

/-!
Verification of the CrisisMonitor token-rotating ingestion pipeline
(data_pipeline of the repository) against its design specification.

The pipeline implementation file (x_api.py) is not among the available
sources; only its README and the deployment scripts are.  The definitions
below are therefore modelled from the specification's own words (data model
§3, component contracts §4, error taxonomy §7) and from the data_pipeline
README where it is the authority (conservative defaults, rotation order).
-/

namespace CrisisMonitor

/-- Modelled from the spec: credential lifecycle states (§3 Data Model);
the implementing module x_api.py is missing from the sources. -/
inductive CredState
  | Active
  | RateLimited
  | Exhausted
deriving DecidableEq, Repr

/-- Modelled from the spec: a credential record
`{identifier, secret_value, state, reset_at}` (§3); `reset_at` is set only
while the credential is rate limited. -/
structure Credential where
  identifier : Nat
  secret_value : String
  state : CredState
  reset_at : Option Nat
deriving DecidableEq, Repr

/-- Modelled from the spec: the credential pool owns the credential list in
configuration order together with a monotonic round-robin cursor (§9). -/
structure Pool where
  creds : List Credential
  cursor : Nat
deriving DecidableEq, Repr

/-- Modelled from the spec: failure of `next_available()` carrying the
earliest reset time (§4.1, §7). -/
inductive PoolError
  | AllCredentialsRateLimited (earliest_reset_at : Option Nat)
deriving DecidableEq, Repr

/-- Modelled from the spec: lazy auto-clear of the rate-limit window — a
`RateLimited` credential becomes `Active` again once current time has
reached its `reset_at` (§4.1: no background timer). -/
def refreshCred (now : Nat) (c : Credential) : Credential :=
  match c.state, c.reset_at with
  | CredState.RateLimited, some r =>
      if r ≤ now then { c with state := CredState.Active, reset_at := none } else c
  | _, _ => c

/-- Modelled from the spec: earliest `reset_at` over a credential list,
reported inside `AllCredentialsRateLimited` (§4.1). -/
def earliestReset (creds : List Credential) : Option Nat :=
  match creds.filterMap Credential.reset_at with
  | [] => none
  | x :: xs => some (xs.foldl Nat.min x)

/-- Round-robin search order: the credential list rotated to start at the
cursor position. -/
def rotateFrom (k : Nat) (l : List Credential) : List Credential :=
  l.drop k ++ l.take k

/-- Modelled from the spec: a credential is selectable when it is `Active`
and not excluded (skipped) for the remainder of the run (§4.6). -/
def eligible (excluded : List Nat) (c : Credential) : Bool :=
  c.state = CredState.Active && !(excluded.contains c.identifier)

/-- Index of the credential with the given identifier. -/
def cursorOf (id : Nat) (creds : List Credential) : Nat :=
  creds.findIdx (fun d => d.identifier = id)

/-- Modelled from the spec: credential selection (§4.1) — refresh expired
rate-limit windows lazily, then pick the first eligible credential in
round-robin order from the cursor; fail with `AllCredentialsRateLimited`
carrying the earliest reset time when none qualifies. -/
def selectFrom (now : Nat) (excluded : List Nat) (p : Pool) :
    Pool × Except PoolError Credential :=
  let creds := p.creds.map (refreshCred now)
  match (rotateFrom (p.cursor % p.creds.length) creds).find? (eligible excluded) with
  | some c => ({ creds := creds, cursor := cursorOf c.identifier creds }, Except.ok c)
  | none =>
      ({ creds := creds, cursor := p.cursor },
       Except.error (PoolError.AllCredentialsRateLimited (earliestReset creds)))

/-- Modelled from the spec: `next_available()` of the Credential Pool
contract (§4.1). -/
def next_available (now : Nat) (p : Pool) : Pool × Except PoolError Credential :=
  selectFrom now [] p

/-- Update the credential with the given identifier. -/
def setCred (f : Credential → Credential) (id : Nat) (creds : List Credential) :
    List Credential :=
  creds.map (fun c => if c.identifier = id then f c else c)

/-- Modelled from the spec: `mark_rate_limited(id, reset_at)` (§4.1). -/
def mark_rate_limited (id : Nat) (reset : Nat) (p : Pool) : Pool :=
  { p with
    creds := setCred
      (fun c => { c with state := CredState.RateLimited, reset_at := some reset })
      id p.creds }

/-- Modelled from the spec: `mark_healthy(id)` (§4.1) — reset a credential
to `Active` after any non-rate-limit outcome. -/
def mark_healthy (id : Nat) (p : Pool) : Pool :=
  { p with
    creds := setCred
      (fun c => { c with state := CredState.Active, reset_at := none })
      id p.creds }

/-- A pool is well formed when no credential carries the (never-assigned)
`Exhausted` state: no pool operation ever produces it, and freshly loaded
credentials start `Active`. -/
def PoolWf (creds : List Credential) : Prop :=
  ∀ c ∈ creds, c.state ≠ CredState.Exhausted

/-- Concrete single-credential pool used as evaluation witness. -/
def wCred : Credential :=
  { identifier := 1, secret_value := "a", state := CredState.Active,
    reset_at := none }

/-- Concrete pool for witnesses. -/
def wPool : Pool := { creds := [wCred], cursor := 0 }

/-- Modelled from the spec: `RawPost` — the API's representation of one
item (§3). -/
structure RawPost where
  id : List Char
  body : List Char
  language : List Char
  author_id : List Char
  author_handle : List Char
  metrics : Nat
  created_at : List Char
deriving DecidableEq, Repr

/-- Modelled from the spec: result of one HTTP search call as seen by the
Request Executor — either a response with a status code, the parsed
rate-limit reset header when present, and the returned posts, or a
network-level failure (§4.2). -/
inductive HttpResult
  | response (status : Nat) (resetHeader : Option Nat) (posts : List RawPost)
  | networkFailure (detail : String)
deriving DecidableEq, Repr

/-- Modelled from the spec: the Executor's outcome classification (§4.2). -/
inductive Outcome
  | Success (posts : List RawPost)
  | RateLimited (reset_at : Nat)
  | RetryableError (detail : String)
  | FatalError (detail : String)
deriving DecidableEq, Repr

/-- Detail string reported for 5xx responses. -/
def serverErrorDetail : String := "server error"

/-- Detail string reported for non-429 4xx responses. -/
def clientErrorDetail : String := "client error"

/-- Modelled from the spec: fallback rate-limit window when the reset
header is absent — fifteen minutes, in seconds (§4.2). -/
def rateLimitFallback : Nat := 15 * 60

/-- Modelled from the spec: `execute(credential, query)` outcome mapping
(§4.2) — HTTP 200 → `Success`; HTTP 429 → `RateLimited` with the header
reset time or now + 15 minutes; HTTP 5xx or network failure →
`RetryableError`; any other 4xx → `FatalError`. -/
def classify (now : Nat) (r : HttpResult) : Outcome :=
  match r with
  | HttpResult.networkFailure d => Outcome.RetryableError d
  | HttpResult.response status hdr posts =>
      if status = 200 then Outcome.Success posts
      else if status = 429 then
        Outcome.RateLimited (hdr.getD (now + rateLimitFallback))
      else if 500 ≤ status ∧ status ≤ 599 then
        Outcome.RetryableError serverErrorDetail
      else Outcome.FatalError clientErrorDetail

/-- Whitespace characters collapsed by the normalizer. -/
def isWs (c : Char) : Bool :=
  c = ' ' || c = '\t' || c = '\n' || c = '\r'

/-- Modelled from the spec: emoji code points are preserved by the
target-script filter (§4.3; README: keeps emojis). -/
def isEmojiChar (c : Char) : Bool :=
  (0x1F000 ≤ c.toNat && c.toNat ≤ 0x1FAFF) ||
    (0x2600 ≤ c.toNat && c.toNat ≤ 0x27BF)

/-- Modelled from the spec: characters of the target script (English
letters, digits and basic sentence punctuation, plus the placeholder
delimiters; README: non-English character filtering). -/
def isBasicChar (c : Char) : Bool :=
  ('a' ≤ c && c ≤ 'z') || ('A' ≤ c && c ≤ 'Z') || ('0' ≤ c && c ≤ '9') ||
    c = '.' || c = ',' || c = '!' || c = '?' || c = '-' || c = '_' ||
    c = '<' || c = '>'

/-- Characters kept by the normalizer's script filter. -/
def isAllowedChar (c : Char) : Bool := isBasicChar c || isEmojiChar c

/-- Split a character list into maximal whitespace-free tokens;
the accumulator holds the current token reversed. -/
def splitWsAux : List Char → List Char → List (List Char)
  | [], acc => if acc.isEmpty then [] else [acc.reverse]
  | c :: cs, acc =>
      if isWs c then
        if acc.isEmpty then splitWsAux cs []
        else acc.reverse :: splitWsAux cs []
      else splitWsAux cs (c :: acc)

/-- Tokenization on whitespace. -/
def splitWs (s : List Char) : List (List Char) :=
  splitWsAux s []

/-- Join tokens with single spaces (no leading or trailing space). -/
def joinSpace : List (List Char) → List Char
  | [] => []
  | [t] => t
  | t :: ts => t ++ ' ' :: joinSpace ts

/-- Does `pat` occur at the start of `s`? -/
def startsWith : List Char → List Char → Bool
  | [], _ => true
  | _ :: _, [] => false
  | p :: ps, c :: cs => p = c && startsWith ps cs

/-- Leading characters of a well-formed http URL. -/
def urlMarker : List Char := ['h', 't', 't', 'p', ':', '/', '/']

/-- Leading characters of a well-formed https URL. -/
def urlMarkerSec : List Char := ['h', 't', 't', 'p', 's', ':', '/', '/']

/-- Modelled from the spec: URL detection for placeholder substitution
(§4.3; README: URL replacement). -/
def isUrlTok (t : List Char) : Bool :=
  startsWith urlMarker t || startsWith urlMarkerSec t

/-- Fixed placeholder written in place of a URL. -/
def urlPlaceholder : List Char := ['<', 'u', 'r', 'l', '>']

/-- Fixed placeholder written in place of an @-mention. -/
def mentionPlaceholder : List Char := ['<', 'u', 's', 'e', 'r', '>']

/-- Fixed placeholder written in place of a #-hashtag. -/
def hashtagPlaceholder : List Char := ['<', 'h', 'a', 's', 'h', 't', 'a', 'g', '>']

/-- The retweet marker token. -/
def rtMarker : List Char := ['R', 'T']

/-- Leading character of an @-mention. -/
def mentionMarker : List Char := ['@']

/-- Leading character of a #-hashtag. -/
def hashtagMarker : List Char := ['#']

/-- Modelled from the spec: per-token normalization — URLs, @-mentions and
#-hashtags become their fixed placeholders; any other token is filtered to
the target script plus emoji (§4.3). -/
def mapTok (t : List Char) : List Char :=
  if isUrlTok t then urlPlaceholder
  else if startsWith mentionMarker t then mentionPlaceholder
  else if startsWith hashtagMarker t then hashtagPlaceholder
  else t.filter isAllowedChar

/-- Modelled from the spec: token-level pipeline — normalize every token,
drop tokens that filtered to nothing, then strip the leading retweet
marker (§4.3). -/
def normalizeToks (toks : List (List Char)) : List (List Char) :=
  ((toks.map mapTok).filter (fun t => !t.isEmpty)).dropWhile
    (fun t => t == rtMarker)

/-- Modelled from the spec: `normalize(raw_body) → clean_text` (§4.3) —
tokenize on whitespace (collapsing runs and trimming ends), apply the
per-token normalization, and rejoin with single spaces. -/
def normalize (s : List Char) : List Char :=
  joinSpace (normalizeToks (splitWs s))

/-- Modelled from the spec: the persisted unit `IngestedRecord` (§3; §6
output record, one JSON object per line). -/
structure IngestedRecord where
  id : List Char
  text : List Char
  clean_text : List Char
  lang : List Char
  label : Option Bool
deriving DecidableEq, Repr

/-- Serialization of the nullable label field. -/
def encodeLabel : Option Bool → List Char
  | none => []
  | some true => ['1']
  | some false => ['0']

/-- Parse of the nullable label field. -/
def decodeLabel : List Char → Option (Option Bool)
  | [] => some none
  | ['1'] => some (some true)
  | ['0'] => some (some false)
  | _ => none

/-- One stored line for a record (fields separated by tabs; the line
itself never contains a newline when the record is well formed). -/
def encodeLine (r : IngestedRecord) : List Char :=
  r.id ++ '\t' :: (r.text ++ '\t' :: (r.clean_text ++ '\t' ::
    (r.lang ++ '\t' :: encodeLabel r.label)))

/-- Split on a separator character, keeping empty segments. -/
def splitOnChar (sep : Char) : List Char → List (List Char)
  | [] => [[]]
  | c :: cs =>
      if c = sep then [] :: splitOnChar sep cs
      else
        match splitOnChar sep cs with
        | [] => [[c]]
        | t :: ts => (c :: t) :: ts

/-- Parse one stored line back into a record. -/
def decodeLine (line : List Char) : Option IngestedRecord :=
  match splitOnChar '\t' line with
  | [a, b, c, d, e] =>
      match decodeLabel e with
      | some l =>
          some { id := a, text := b, clean_text := c, lang := d, label := l }
      | none => none
  | _ => none

/-- A field is storable when it contains neither the field separator nor a
newline. -/
def wfField (f : List Char) : Bool :=
  f.all (fun c => !(c == '\t') && !(c == '\n'))

/-- A record is storable when all its text fields are. -/
def wfRec (r : IngestedRecord) : Bool :=
  wfField r.id && wfField r.text && wfField r.clean_text && wfField r.lang

/-- The destination store holding exactly the given finalized records:
one full line plus newline per record, in write order. -/
def encodeStore : List IngestedRecord → List Char
  | [] => []
  | r :: rs => encodeLine r ++ '\n' :: encodeStore rs

/-- Parse a list of lines; fails if any line is malformed. -/
def decodeLines : List (List Char) → Option (List IngestedRecord)
  | [] => some []
  | l :: ls =>
      match decodeLine l, decodeLines ls with
      | some r, some rs => some (r :: rs)
      | _, _ => none

/-- Parse the whole destination store; succeeds exactly when the store is
a sequence of complete record lines each ending in a newline. -/
def decodeStore (s : List Char) : Option (List IngestedRecord) :=
  let parts := splitOnChar '\n' s
  if parts.getLast? = some [] then decodeLines parts.dropLast else none

/-- Modelled from the spec: `DuplicateRecord` — write attempted for an id
already present (§7). -/
inductive WriteError
  | DuplicateRecord
deriving DecidableEq, Repr

/-- Modelled from the spec: the Output Writer's run-lifetime state — the
durable store plus the id cache read once at run start (§4.4). -/
structure Writer where
  store : List Char
  ids : List (List Char)
deriving DecidableEq, Repr

/-- Modelled from the spec: `append(record)` (§4.4) — fails with
`DuplicateRecord` when the id is already known, otherwise appends one full
record line atomically (single atomic append per record). -/
def writerAppend (w : Writer) (r : IngestedRecord) : Except WriteError Writer :=
  if w.ids.contains r.id then Except.error WriteError.DuplicateRecord
  else
    Except.ok
      { store := w.store ++ (encodeLine r ++ ['\n']), ids := r.id :: w.ids }

/-- Modelled from the spec: opening the destination at run start reads the
existing record ids once and caches them for the run (§4.4). -/
def openWriter (store : List Char) : Writer :=
  { store := store, ids := ((decodeStore store).getD []).map (fun r => r.id) }

/-- Modelled from the spec: `RequestAttempt` (§3) — immutable log entry
for one search call. -/
structure RequestAttempt where
  timestamp : Nat
  credential_id : Nat
  query_max_results : Nat
  outcome : Outcome
deriving DecidableEq, Repr

/-- Does an attempt record a rate-limited outcome? -/
def isRLOutcome : Outcome → Bool
  | Outcome.RateLimited _ => true
  | _ => false

/-- Modelled from the spec: Orchestrator states (§4.6). -/
inductive Phase
  | Selecting
  | Executing (cred : Credential) (retries : Nat)
  | Writing (cred : Credential) (posts : List RawPost)
  | Halted (reason : Option PoolError)
deriving DecidableEq, Repr

/-- Modelled from the spec: run configuration — requested record count,
retry cap, per-call result count, and the (fixed) clock of the run. -/
structure Config where
  count : Nat
  maxRetries : Nat
  maxResults : Nat
  now : Nat
deriving DecidableEq, Repr

/-- Modelled from the README (Conservative Defaults): max retries 3. -/
def defaultMaxRetries : Nat := 3

/-- Modelled from the README (Conservative Defaults): default 1 tweet per
request. -/
def defaultResultsPerCall : Nat := 1

/-- Modelled from the README (Conservative Defaults): max 10 tweets per
request. -/
def maxResultsCap : Nat := 10

/-- Modelled from the README: the per-call result count actually sent to
the API — the caller's value if given (default 1), never above the cap of
10. -/
def resolveResultsPerCall (requested : Option Nat) : Nat :=
  Nat.min (requested.getD defaultResultsPerCall) maxResultsCap

/-- Modelled from the spec: increasing backoff before the next retry of
the same credential (§4.2, §9: computed delay from the attempt counter). -/
def backoffDelay (retries : Nat) : Nat :=
  2 ^ retries

/-- Modelled from the spec: the whole Orchestrator run state (§4.6) —
pool, per-run skip list, phase, counters, writer, logs, recorded backoff
sleeps, and the script of remaining HTTP results. -/
structure RunState where
  pool : Pool
  skipped : List Nat
  phase : Phase
  written : Nat
  skippedCount : Nat
  writer : Writer
  attempts : List RequestAttempt
  successLog : List IngestedRecord
  sleeps : List Nat
  env : List HttpResult
deriving Repr

/-- Modelled from the spec: the Normalizer builds the persisted record
from a raw post (§3: `IngestedRecord` created from a `RawPost`, label a
null placeholder). -/
def mkRecord (p : RawPost) : IngestedRecord :=
  { id := p.id, text := p.body, clean_text := normalize p.body,
    lang := p.language, label := none }

/-- The log entry the Orchestrator records for one search call. -/
def mkAttempt (cfg : Config) (cid : Nat) (out : Outcome) : RequestAttempt :=
  { timestamp := cfg.now, credential_id := cid,
    query_max_results := cfg.maxResults, outcome := out }

/-- Modelled from the spec: one transition of the Orchestrator state
machine (§4.6). -/
def step (cfg : Config) (s : RunState) : RunState :=
  match s.phase with
  | Phase.Halted _ => s
  | Phase.Selecting =>
      if s.written ≥ cfg.count then { s with phase := Phase.Halted none }
      else
        match selectFrom cfg.now s.skipped s.pool with
        | (p', Except.ok c) =>
            { s with pool := p', phase := Phase.Executing c 0 }
        | (p', Except.error e) =>
            { s with pool := p', phase := Phase.Halted (some e) }
  | Phase.Executing c r =>
      match s.env with
      | [] => { s with phase := Phase.Halted none }
      | resp :: env' =>
          let out := classify cfg.now resp
          let att := mkAttempt cfg c.identifier out
          let s' := { s with env := env', attempts := s.attempts ++ [att] }
          match out with
          | Outcome.Success posts => { s' with phase := Phase.Writing c posts }
          | Outcome.RateLimited reset =>
              { s' with pool := mark_rate_limited c.identifier reset s'.pool,
                        phase := Phase.Selecting }
          | Outcome.RetryableError _ =>
              if r < cfg.maxRetries then
                { s' with phase := Phase.Executing c (r + 1),
                          sleeps := s.sleeps ++ [backoffDelay r] }
              else
                { s' with pool := mark_healthy c.identifier s'.pool,
                          skipped := s.skipped ++ [c.identifier],
                          phase := Phase.Selecting }
          | Outcome.FatalError _ =>
              { s' with pool := mark_healthy c.identifier s'.pool,
                        skipped := s.skipped ++ [c.identifier],
                        phase := Phase.Selecting }
  | Phase.Writing c posts =>
      match posts with
      | [] => { s with pool := mark_healthy c.identifier s.pool,
                       phase := Phase.Selecting }
      | post :: rest =>
          if s.written ≥ cfg.count then { s with phase := Phase.Halted none }
          else
            match writerAppend s.writer (mkRecord post) with
            | Except.ok w' =>
                { s with writer := w', written := s.written + 1,
                         successLog := s.successLog ++ [mkRecord post],
                         phase := Phase.Writing c rest }
            | Except.error _ =>
                { s with skippedCount := s.skippedCount + 1,
                         phase := Phase.Writing c rest }

/-- Is the run over? -/
def RunState.isHalted (s : RunState) : Bool :=
  match s.phase with
  | Phase.Halted _ => true
  | _ => false

/-- Iterate the Orchestrator for at most the given number of steps,
stopping once halted. -/
def runSteps (cfg : Config) : Nat → RunState → RunState
  | 0, s => s
  | n + 1, s => if s.isHalted then s else runSteps cfg n (step cfg s)

/-- Modelled from the spec: the state a run starts from — fresh pool
cursor, empty logs, writer opened on the existing destination store. -/
def initState (creds : List Credential) (store : List Char)
    (env : List HttpResult) : RunState :=
  { pool := { creds := creds, cursor := 0 }, skipped := [],
    phase := Phase.Selecting, written := 0, skippedCount := 0,
    writer := openWriter store, attempts := [], successLog := [],
    sleeps := [], env := env }

/-- Modelled from the spec: the run summary the Orchestrator always
terminates with (§6 invocation contract). -/
structure RunSummary where
  written : Nat
  skipped : Nat
  halted_reason : Option PoolError
deriving DecidableEq, Repr

/-- The halt reason of a finished run (none while running or on success). -/
def haltReasonOf (s : RunState) : Option PoolError :=
  match s.phase with
  | Phase.Halted r => r
  | _ => none

/-- Modelled from the spec: result of `ingest` — `ConfigurationError`
when no credentials resolved (fatal, run does not start), else the run's
summary plus the final destination store (§6, §7). -/
inductive IngestResult
  | ConfigurationError
  | Completed (summary : RunSummary) (finalStore : List Char)
deriving Repr

/-- Modelled from the spec: the top-level invocation — refuse to start
with no credentials, otherwise run the state machine to completion (§6). -/
def ingest (creds : List Credential) (cfg : Config) (store : List Char)
    (env : List HttpResult) (fuel : Nat) : IngestResult :=
  if creds.isEmpty then IngestResult.ConfigurationError
  else
    let fin := runSteps cfg fuel (initState creds store env)
    IngestResult.Completed
      { written := fin.written, skipped := fin.skippedCount,
        halted_reason := haltReasonOf fin }
      fin.writer.store

/-- Concrete rate-limited credential for the C3 witness. -/
def wCredRL : Credential :=
  { identifier := 1, secret_value := "a", state := CredState.RateLimited,
    reset_at := some 5 }

/-- Concrete configuration for run witnesses. -/
def wCfg : Config := { count := 1, maxRetries := 3, maxResults := 1, now := 0 }

/-- Concrete failure detail for witnesses. -/
def wDetail : String := "x"

/-- The two-credential rotation scenario of the spec's testable
properties: credentials A and B both healthy, the first call (on A)
answered by `resp`, observed after three Orchestrator transitions
(select A, execute on A, re-select). -/
def rotationScenario (ia ib : Nat) (sa sb : String) (ra rb : Option Nat)
    (cfg : Config) (store : List Char) (resp : HttpResult)
    (env' : List HttpResult) : RunState :=
  step cfg (step cfg (step cfg (initState
    [{ identifier := ia, secret_value := sa, state := CredState.Active,
       reset_at := ra },
     { identifier := ib, secret_value := sb, state := CredState.Active,
       reset_at := rb }]
    store (resp :: env'))))

/-- The retry-exhaustion scenario: a single healthy credential whose
calls keep failing retryably, observed after five Orchestrator
transitions (select, initial attempt, three retries). -/
def retryScenario (ia : Nat) (sa : String) (ra : Option Nat) (cfg : Config)
    (store : List Char) (resp : HttpResult) (env' : List HttpResult) :
    RunState :=
  step cfg (step cfg (step cfg (step cfg (step cfg (initState
    [⟨ia, sa, CredState.Active, ra⟩] store
    (resp :: resp :: resp :: resp :: env'))))))

/-- The posts carried by an HTTP result (empty on a network failure). -/
def postsOfResult : HttpResult → List RawPost
  | HttpResult.response _ _ posts => posts
  | HttpResult.networkFailure _ => []

/-- A raw post whose textual fields are storable (free of the line
format's separator and newline). -/
def wfPost (p : RawPost) : Bool :=
  wfField p.id && wfField p.body && wfField p.language

/-- The run-lifetime invariant tying the Orchestrator state to the
records finalized so far: the destination store holds exactly the
initial records followed by the success log, entry by entry — each line
complete — the id cache covers exactly the stored ids, ids are unique,
and every post still to be processed is storable. -/
structure RunInv (recs0 : List IngestedRecord) (s : RunState) : Prop where
  store_eq : s.writer.store = encodeStore (recs0 ++ s.successLog)
  wf_all : ∀ r ∈ recs0 ++ s.successLog, wfRec r = true
  ids_mem : ∀ i, i ∈ s.writer.ids ↔
    i ∈ (recs0 ++ s.successLog).map (fun r => r.id)
  nodup : ((recs0 ++ s.successLog).map (fun r => r.id)).Nodup
  env_wf : ∀ h ∈ s.env, ∀ p ∈ postsOfResult h, wfPost p = true
  phase_wf : ∀ c posts, s.phase = Phase.Writing c posts →
    ∀ p ∈ posts, wfPost p = true

/-- Concrete record for the C5 witness and as pre-existing store content
for the C4 witness. -/
def wRec : IngestedRecord :=
  { id := ['a'], text := ['t'], clean_text := ['c'], lang := ['e'],
    label := none }

/-- Concrete well-formed raw post for the C4 witness. -/
def wPost : RawPost :=
  { id := ['b'], body := ['h', 'i'], language := ['e', 'n'],
    author_id := [], author_handle := [], metrics := 0, created_at := [] }

/-- Concrete successful search response carrying one post, for the C4
witness. -/
def wResp : HttpResult := HttpResult.response 200 none [wPost]

theorem refreshCred_state (now : Nat) (c : Credential) :
    (refreshCred now c).state = c.state ∨
      (refreshCred now c).state = CredState.Active := by
  unfold refreshCred
  rcases c with ⟨i, sv, st, ra⟩
  cases st <;> cases ra <;> simp
  split <;> simp

theorem refreshCred_of_not_rl (now : Nat) (c : Credential)
    (h : c.state ≠ CredState.RateLimited) : refreshCred now c = c := by
  unfold refreshCred
  rcases c with ⟨i, sv, st, ra⟩
  cases st <;> cases ra <;> simp_all

theorem refreshCred_of_future (now : Nat) (c : Credential) (rt : Nat)
    (hst : c.state = CredState.RateLimited) (hra : c.reset_at = some rt)
    (hlt : now < rt) : refreshCred now c = c := by
  unfold refreshCred
  rcases c with ⟨i, sv, st, ra⟩
  simp only at hst hra
  subst hst; subst hra
  simp [Nat.not_le.mpr hlt]

theorem mem_rotateFrom {a : Credential} {k : Nat} {l : List Credential} :
    a ∈ rotateFrom k l ↔ a ∈ l := by
  unfold rotateFrom
  constructor
  · intro h
    rcases List.mem_append.mp h with h' | h'
    · exact List.mem_of_mem_drop h'
    · exact List.mem_of_mem_take h'
  · intro h
    have := List.take_append_drop k l
    rw [List.mem_append]
    rcases List.mem_append.mp (this ▸ h) with h' | h'
    · exact Or.inr h'
    · exact Or.inl h'

theorem earliestReset_isSome {creds : List Credential} (hne : creds ≠ [])
    (h : ∀ c ∈ creds, ∃ rt, c.reset_at = some rt) :
    earliestReset creds ≠ none := by
  unfold earliestReset
  cases creds with
  | nil => exact absurd rfl hne
  | cons c cs =>
      obtain ⟨rt, hrt⟩ := h c (List.mem_cons_self c cs)
      simp [List.filterMap_cons, hrt]

theorem poolWf_refresh {now : Nat} {creds : List Credential}
    (hwf : PoolWf creds) : PoolWf (creds.map (refreshCred now)) := by
  intro c hc
  rcases List.mem_map.mp hc with ⟨c0, hc0, rfl⟩
  rcases refreshCred_state now c0 with h | h
  · rw [h]; exact hwf c0 hc0
  · rw [h]; simp

theorem eligible_nil_iff (c : Credential) :
    eligible [] c = true ↔ c.state = CredState.Active := by
  simp [eligible]

theorem selectFrom_find_some {now : Nat} {excl : List Nat} {p : Pool}
    {c : Credential}
    (h : (rotateFrom (p.cursor % p.creds.length)
        (p.creds.map (refreshCred now))).find? (eligible excl) = some c) :
    selectFrom now excl p =
      ({ creds := p.creds.map (refreshCred now),
         cursor := cursorOf c.identifier (p.creds.map (refreshCred now)) },
       Except.ok c) := by
  unfold selectFrom
  simp only [h]

theorem selectFrom_find_none {now : Nat} {excl : List Nat} {p : Pool}
    (h : (rotateFrom (p.cursor % p.creds.length)
        (p.creds.map (refreshCred now))).find? (eligible excl) = none) :
    selectFrom now excl p =
      ({ creds := p.creds.map (refreshCred now), cursor := p.cursor },
       Except.error (PoolError.AllCredentialsRateLimited
         (earliestReset (p.creds.map (refreshCred now))))) := by
  unfold selectFrom
  simp only [h]

/-- C1: over a well-formed pool (no credential in the never-produced
`Exhausted` state), `next_available` (a) only ever returns `Active`
credentials, (b) succeeds exactly when, after the lazy reset-window
refresh, some credential is not `RateLimited`, and (c) when it fails, the
error is `AllCredentialsRateLimited` carrying the earliest reset time and
every credential is indeed currently `RateLimited`. -/
theorem next_available_correct (now : Nat) (p : Pool) (hwf : PoolWf p.creds) :
    (∀ p' c, next_available now p = (p', Except.ok c) →
        c.state = CredState.Active) ∧
    ((∃ c ∈ p.creds.map (refreshCred now), c.state ≠ CredState.RateLimited) ↔
        ∃ p' c, next_available now p = (p', Except.ok c)) ∧
    (∀ p' e, next_available now p = (p', Except.error e) →
        e = PoolError.AllCredentialsRateLimited
              (earliestReset (p.creds.map (refreshCred now))) ∧
        ∀ c ∈ p.creds.map (refreshCred now), c.state = CredState.RateLimited) := by
  have hwf' : PoolWf (p.creds.map (refreshCred now)) := poolWf_refresh hwf
  cases hfind : (rotateFrom (p.cursor % p.creds.length)
      (p.creds.map (refreshCred now))).find? (eligible []) with
  | some c =>
      have heq := selectFrom_find_some hfind
      refine ⟨?_, ?_, ?_⟩
      · intro p' c' h
        rw [next_available, heq] at h
        have hc' : c' = c := by
          have := congrArg Prod.snd h
          simpa using this.symm
        subst hc'
        exact (eligible_nil_iff c').mp (List.find?_some hfind)
      · constructor
        · intro _
          exact ⟨_, c, heq⟩
        · intro _
          refine ⟨c, ?_, ?_⟩
          · exact mem_rotateFrom.mp (List.mem_of_find?_eq_some hfind)
          · have := (eligible_nil_iff c).mp (List.find?_some hfind)
            rw [this]; simp
      · intro p' e h
        rw [next_available, heq] at h
        exact absurd (congrArg Prod.snd h) (by simp)
  | none =>
      have heq := selectFrom_find_none hfind
      have hall : ∀ c ∈ p.creds.map (refreshCred now),
          c.state = CredState.RateLimited := by
        intro c hc
        have hrot : c ∈ rotateFrom (p.cursor % p.creds.length)
            (p.creds.map (refreshCred now)) := mem_rotateFrom.mpr hc
        have hne := List.find?_eq_none.mp hfind c hrot
        have hnact : c.state ≠ CredState.Active := by
          intro hact
          exact hne ((eligible_nil_iff c).mpr hact)
        have hnex := hwf' c hc
        cases h : c.state with
        | Active => exact absurd h hnact
        | RateLimited => rfl
        | Exhausted => exact absurd h hnex
      refine ⟨?_, ?_, ?_⟩
      · intro p' c h
        rw [next_available, heq] at h
        exact absurd (congrArg Prod.snd h) (by simp)
      · constructor
        · intro ⟨c, hc, hne⟩
          exact absurd (hall c hc) hne
        · intro ⟨p', c, h⟩
          rw [next_available, heq] at h
          exact absurd (congrArg Prod.snd h) (by simp)
      · intro p' e h
        rw [next_available, heq] at h
        have := congrArg Prod.snd h
        simp at this
        exact ⟨this.symm, hall⟩

/-- Witness for C1 at a concrete pool. -/
theorem next_available_correct_witness : wCred.state = CredState.Active :=
  (next_available_correct 0 wPool
    (by intro c hc; simp [wPool, wCred] at hc; subst hc; simp [wCred])).1
    (next_available 0 wPool).1 wCred (by rfl)

/-- C7: the Executor's classification matches the spec's mapping case by
case: 200 → `Success` with the body posts; 429 → `RateLimited` with the
header reset time, falling back to now + 15 minutes when the header is
absent; 5xx and network failures → `RetryableError`; every other 4xx →
`FatalError`. -/
theorem classify_mapping (now : Nat) :
    (∀ hdr posts, classify now (HttpResult.response 200 hdr posts) =
        Outcome.Success posts) ∧
    (∀ rt posts, classify now (HttpResult.response 429 (some rt) posts) =
        Outcome.RateLimited rt) ∧
    (∀ posts, classify now (HttpResult.response 429 none posts) =
        Outcome.RateLimited (now + 15 * 60)) ∧
    (∀ status hdr posts, 500 ≤ status → status ≤ 599 →
        classify now (HttpResult.response status hdr posts) =
          Outcome.RetryableError serverErrorDetail) ∧
    (∀ d, classify now (HttpResult.networkFailure d) =
        Outcome.RetryableError d) ∧
    (∀ status hdr posts, 400 ≤ status → status ≤ 499 → status ≠ 429 →
        classify now (HttpResult.response status hdr posts) =
          Outcome.FatalError clientErrorDetail) := by
  refine ⟨?_, ?_, ?_, ?_, ?_, ?_⟩
  · intro hdr posts; rfl
  · intro rt posts; rfl
  · intro posts; rfl
  · intro status hdr posts h5 h5'
    have h200 : status ≠ 200 := by omega
    have h429 : status ≠ 429 := by omega
    simp [classify, h200, h429, h5, h5']
  · intro d; rfl
  · intro status hdr posts h4 h4' h429
    have h200 : status ≠ 200 := by omega
    have h5 : ¬(500 ≤ status ∧ status ≤ 599) := by omega
    simp [classify, h200, h429, h5]

/-- Witness for C7: the classification evaluated at concrete responses. -/
theorem classify_mapping_witness :
    classify 0 (HttpResult.response 503 none []) =
        Outcome.RetryableError serverErrorDetail ∧
    classify 0 (HttpResult.response 404 none []) =
        Outcome.FatalError clientErrorDetail :=
  ⟨(classify_mapping 0).2.2.2.1 503 none [] (by decide) (by decide),
   (classify_mapping 0).2.2.2.2.2 404 none [] (by decide) (by decide)
     (by decide)⟩

theorem allowed_not_ws {c : Char} (h : isAllowedChar c = true) :
    isWs c = false := by
  cases hws : isWs c
  · rfl
  · exfalso
    unfold isWs at hws
    have hcase : c = ' ' ∨ c = '\t' ∨ c = '\n' ∨ c = '\x0d' := by
      simpa [Bool.or_eq_true_iff, decide_eq_true_eq, or_assoc] using hws
    rcases hcase with rfl | rfl | rfl | rfl <;> exact absurd h (by decide)

theorem startsWith_mem {p t : List Char} (h : startsWith p t = true) :
    ∀ c ∈ p, c ∈ t := by
  induction p generalizing t with
  | nil => intro c hc; exact absurd hc (by simp)
  | cons a p ih =>
      cases t with
      | nil => exact absurd h (by simp [startsWith])
      | cons b t =>
          unfold startsWith at h
          rcases Bool.and_eq_true_iff.mp h with ⟨hab, hrest⟩
          have hab' : a = b := of_decide_eq_true hab
          intro c hc
          rcases List.mem_cons.mp hc with rfl | hc'
          · rw [hab']; exact List.mem_cons_self b t
          · exact List.mem_cons_of_mem b (ih hrest c hc')

theorem mapTok_of_allowed {u : List Char}
    (hall : ∀ c ∈ u, isAllowedChar c = true) : mapTok u = u := by
  have hurl : isUrlTok u = false := by
    cases h : isUrlTok u
    · rfl
    · exfalso
      unfold isUrlTok at h
      rcases Bool.or_eq_true_iff.mp h with h' | h'
      · exact absurd (hall ':' (startsWith_mem h' ':' (by decide))) (by decide)
      · exact absurd (hall ':' (startsWith_mem h' ':' (by decide))) (by decide)
  have hm : startsWith mentionMarker u = false := by
    cases h : startsWith mentionMarker u
    · rfl
    · exact absurd (hall '@' (startsWith_mem h '@' (by decide))) (by decide)
  have hh : startsWith hashtagMarker u = false := by
    cases h : startsWith hashtagMarker u
    · rfl
    · exact absurd (hall '#' (startsWith_mem h '#' (by decide))) (by decide)
  unfold mapTok
  rw [hurl, hm, hh]
  simp only [Bool.false_eq_true, if_false]
  exact List.filter_eq_self.mpr hall

theorem mapTok_allowed (t : List Char) :
    ∀ c ∈ mapTok t, isAllowedChar c = true := by
  unfold mapTok
  split
  · exact fun c hc => by
      have : ∀ c ∈ urlPlaceholder, isAllowedChar c = true := by decide
      exact this c hc
  · split
    · exact fun c hc => by
        have : ∀ c ∈ mentionPlaceholder, isAllowedChar c = true := by decide
        exact this c hc
    · split
      · exact fun c hc => by
          have : ∀ c ∈ hashtagPlaceholder, isAllowedChar c = true := by decide
          exact this c hc
      · exact fun c hc => (List.mem_filter.mp hc).2

theorem mapTok_idem (t : List Char) : mapTok (mapTok t) = mapTok t :=
  mapTok_of_allowed (mapTok_allowed t)

theorem map_fixed {α : Type} {f : α → α} {l : List α}
    (h : ∀ a ∈ l, f a = a) : l.map f = l := by
  induction l with
  | nil => rfl
  | cons a l ih =>
      simp only [List.map_cons, h a (List.mem_cons_self a l)]
      rw [ih (fun b hb => h b (List.mem_cons_of_mem a hb))]

theorem dropWhile_twice {α : Type} (p : α → Bool) (l : List α) :
    (l.dropWhile p).dropWhile p = l.dropWhile p := by
  induction l with
  | nil => rfl
  | cons a l ih =>
      cases h : p a
      · simp [List.dropWhile_cons, h]
      · simp [List.dropWhile_cons, h, ih]

theorem splitWsAux_token {t : List Char} (h : ∀ c ∈ t, isWs c = false) :
    ∀ cs acc, splitWsAux (t ++ cs) acc = splitWsAux cs (t.reverse ++ acc) := by
  induction t with
  | nil => intro cs acc; simp
  | cons c t ih =>
      intro cs acc
      have hc : isWs c = false := h c (List.mem_cons_self c t)
      have ht : ∀ c' ∈ t, isWs c' = false :=
        fun c' hc' => h c' (List.mem_cons_of_mem c hc')
      simp only [List.cons_append, splitWsAux, hc, Bool.false_eq_true,
        if_false, List.append_eq]
      rw [ih ht cs (c :: acc)]
      simp

theorem splitWs_joinSpace {ts : List (List Char)}
    (h : ∀ t ∈ ts, t ≠ [] ∧ ∀ c ∈ t, isWs c = false) :
    splitWs (joinSpace ts) = ts := by
  induction ts with
  | nil => rfl
  | cons t ts ih =>
      obtain ⟨hne, hnws⟩ := h t (List.mem_cons_self t ts)
      have hrev : t.reverse.isEmpty = false := by
        cases hrv : t.reverse with
        | nil => exact absurd (List.reverse_eq_nil_iff.mp hrv) hne
        | cons a l => rfl
      cases ts with
      | nil =>
          show splitWsAux (joinSpace [t]) [] = [t]
          have h1 := splitWsAux_token hnws [] []
          simp only [List.append_nil] at h1
          show splitWsAux t [] = [t]
          rw [h1]
          simp [splitWsAux, hrev]
      | cons u us =>
          show splitWsAux (joinSpace (t :: u :: us)) [] = t :: u :: us
          have hjoin : joinSpace (t :: u :: us) =
              t ++ ' ' :: joinSpace (u :: us) := rfl
          rw [hjoin, splitWsAux_token hnws]
          simp only [List.append_nil]
          have hstep : splitWsAux (' ' :: joinSpace (u :: us)) t.reverse =
              t.reverse.reverse :: splitWsAux (joinSpace (u :: us)) [] := by
            simp [splitWsAux, isWs, hrev]
          rw [hstep, List.reverse_reverse]
          have ihs := ih (fun v hv => h v (List.mem_cons_of_mem t hv))
          unfold splitWs at ihs
          rw [ihs]

theorem normalizeToks_def (l : List (List Char)) :
    normalizeToks l =
      ((l.map mapTok).filter (fun t => !t.isEmpty)).dropWhile
        (fun t => t == rtMarker) := rfl

theorem normalizeToks_mem {toks : List (List Char)} {u : List Char}
    (hu : u ∈ normalizeToks toks) : (∃ t, u = mapTok t) ∧ u ≠ [] := by
  unfold normalizeToks at hu
  have hu1 : u ∈ (toks.map mapTok).filter (fun t => !t.isEmpty) :=
    (List.dropWhile_sublist _).mem hu
  have hu2 := List.mem_filter.mp hu1
  refine ⟨?_, ?_⟩
  · rcases List.mem_map.mp hu2.1 with ⟨t, _, rfl⟩
    exact ⟨t, rfl⟩
  · intro hnil
    subst hnil
    simp at hu2

/-- C8: the text normalizer is idempotent — normalizing an already
normalized body changes nothing. -/
theorem normalize_idem (s : List Char) :
    normalize (normalize s) = normalize s := by
  unfold normalize
  have hfix : ∀ u ∈ normalizeToks (splitWs s), mapTok u = u := by
    intro u hu
    rcases (normalizeToks_mem hu).1 with ⟨t, rfl⟩
    exact mapTok_idem t
  have htok : ∀ u ∈ normalizeToks (splitWs s),
      u ≠ [] ∧ ∀ c ∈ u, isWs c = false := by
    intro u hu
    refine ⟨(normalizeToks_mem hu).2, ?_⟩
    intro c hc
    rcases (normalizeToks_mem hu).1 with ⟨t, rfl⟩
    exact allowed_not_ws (mapTok_allowed t c hc)
  rw [splitWs_joinSpace htok]
  congr 1
  have hfil : (normalizeToks (splitWs s)).filter (fun t => !t.isEmpty) =
      normalizeToks (splitWs s) := by
    refine List.filter_eq_self.mpr ?_
    intro u hu
    have := (normalizeToks_mem hu).2
    cases hcc : u.isEmpty
    · rfl
    · exact absurd (List.isEmpty_iff.mp hcc) this
  set ts := normalizeToks (splitWs s) with hts
  rw [normalizeToks_def ts, map_fixed hfix, hfil, hts,
    normalizeToks_def (splitWs s)]
  exact dropWhile_twice _ _

theorem normalizeToks_wf {toks : List (List Char)} :
    ∀ u ∈ normalizeToks toks, u ≠ [] ∧ ∀ c ∈ u, isWs c = false := by
  intro u hu
  refine ⟨(normalizeToks_mem hu).2, ?_⟩
  intro c hc
  rcases (normalizeToks_mem hu).1 with ⟨t, rfl⟩
  exact allowed_not_ws (mapTok_allowed t c hc)

theorem joinSpace_chars {ts : List (List Char)} {c : Char}
    (hc : c ∈ joinSpace ts) : (∃ t ∈ ts, c ∈ t) ∨ c = ' ' := by
  induction ts with
  | nil => exact absurd hc (by simp [joinSpace])
  | cons t ts ih =>
      cases ts with
      | nil =>
          exact Or.inl ⟨t, List.mem_cons_self t [], hc⟩
      | cons u us =>
          have hj : joinSpace (t :: u :: us) =
              t ++ ' ' :: joinSpace (u :: us) := rfl
          rw [hj] at hc
          rcases List.mem_append.mp hc with h | h
          · exact Or.inl ⟨t, List.mem_cons_self t (u :: us), h⟩
          · rcases List.mem_cons.mp h with rfl | h'
            · exact Or.inr rfl
            · rcases ih h' with ⟨v, hv, hcv⟩ | hsp
              · exact Or.inl ⟨v, List.mem_cons_of_mem t hv, hcv⟩
              · exact Or.inr hsp

/-- C9: the normalizer's component behaviors — a leading retweet marker is
stripped; well-formed URLs, @-mentions and #-hashtags each become their
fixed placeholder token; every other token is filtered to the target
script, which includes all emoji code points; and the output is
whitespace-collapsed and trimmed (it contains only script characters and
single separating spaces, and re-tokenizing and re-joining it changes
nothing). -/
theorem normalize_components :
    (∀ s, normalize (rtMarker ++ ' ' :: s) = normalize s) ∧
    (∀ w, isUrlTok w = true → mapTok w = urlPlaceholder) ∧
    (∀ cs, mapTok ('@' :: cs) = mentionPlaceholder) ∧
    (∀ cs, mapTok ('#' :: cs) = hashtagPlaceholder) ∧
    (∀ w, isUrlTok w = false → startsWith mentionMarker w = false →
        startsWith hashtagMarker w = false →
        mapTok w = w.filter isAllowedChar) ∧
    (∀ c, isEmojiChar c = true → isAllowedChar c = true) ∧
    (∀ s c, c ∈ normalize s → isAllowedChar c = true ∨ c = ' ') ∧
    (∀ s, joinSpace (splitWs (normalize s)) = normalize s) := by
  have hrt : ∀ s : List Char, normalize (rtMarker ++ ' ' :: s) = normalize s := by
    intro s
    unfold normalize
    have hsplit : splitWs (rtMarker ++ ' ' :: s) = rtMarker :: splitWs s := by
      unfold splitWs
      rw [splitWsAux_token (by decide)]
      simp [splitWsAux, isWs, rtMarker]
    rw [hsplit]
    congr 1
  refine ⟨hrt, ?_, ?_, ?_, ?_, ?_, ?_, ?_⟩
  · intro w hurl
    unfold mapTok
    rw [hurl]
    rfl
  · intro cs
    unfold mapTok
    have h1 : isUrlTok ('@' :: cs) = false := by
      simp [isUrlTok, urlMarker, urlMarkerSec, startsWith]
    have h2 : startsWith mentionMarker ('@' :: cs) = true := by
      simp [mentionMarker, startsWith]
    rw [h1, h2]
    rfl
  · intro cs
    unfold mapTok
    have h1 : isUrlTok ('#' :: cs) = false := by
      simp [isUrlTok, urlMarker, urlMarkerSec, startsWith]
    have h2 : startsWith mentionMarker ('#' :: cs) = false := by
      simp [mentionMarker, startsWith]
    have h3 : startsWith hashtagMarker ('#' :: cs) = true := by
      simp [hashtagMarker, startsWith]
    rw [h1, h2, h3]
    rfl
  · intro w h1 h2 h3
    unfold mapTok
    rw [h1, h2, h3]
    rfl
  · intro c h
    unfold isAllowedChar
    rw [h]
    simp
  · intro s c hc
    unfold normalize at hc
    rcases joinSpace_chars hc with ⟨t, ht, hct⟩ | hsp
    · rcases (normalizeToks_mem ht).1 with ⟨t0, rfl⟩
      exact Or.inl (mapTok_allowed t0 c hct)
    · exact Or.inr hsp
  · intro s
    show joinSpace (splitWs (joinSpace (normalizeToks (splitWs s)))) =
      normalize s
    rw [splitWs_joinSpace normalizeToks_wf]
    rfl

/-- Witness for C9 at concrete inputs: a concrete retweet-marked body and
a concrete URL token. -/
theorem normalize_components_witness :
    normalize (rtMarker ++ ' ' :: ['h', 'i']) = normalize ['h', 'i'] ∧
    mapTok urlMarker = urlPlaceholder :=
  ⟨normalize_components.1 ['h', 'i'],
   normalize_components.2.1 urlMarker (by decide)⟩

theorem splitOnChar_ne_nil (sep : Char) (l : List Char) :
    splitOnChar sep l ≠ [] := by
  cases l with
  | nil => simp [splitOnChar]
  | cons c cs =>
      unfold splitOnChar
      by_cases h : c = sep
      · simp [h]
      · simp only [h, if_false]
        cases splitOnChar sep cs <;> simp

theorem splitOnChar_no_sep {sep : Char} {xs : List Char}
    (h : ∀ c ∈ xs, c ≠ sep) : splitOnChar sep xs = [xs] := by
  induction xs with
  | nil => rfl
  | cons c cs ih =>
      unfold splitOnChar
      have hc : ¬(c = sep) := h c (List.mem_cons_self c cs)
      simp only [hc, if_false]
      rw [ih (fun c' hc' => h c' (List.mem_cons_of_mem c hc'))]

theorem splitOnChar_append {sep : Char} {xs ys : List Char}
    (h : ∀ c ∈ xs, c ≠ sep) :
    splitOnChar sep (xs ++ sep :: ys) = xs :: splitOnChar sep ys := by
  induction xs with
  | nil => simp [splitOnChar]
  | cons c cs ih =>
      have hc : ¬(c = sep) := h c (List.mem_cons_self c cs)
      have ih' := ih (fun c' hc' => h c' (List.mem_cons_of_mem c hc'))
      simp only [List.cons_append, splitOnChar, List.append_eq]
      rw [if_neg hc, ih']

theorem wfField_ne {f : List Char} (h : wfField f = true) :
    ∀ c ∈ f, c ≠ '\t' ∧ c ≠ '\n' := by
  intro c hc
  have := List.all_eq_true.mp h c hc
  constructor
  · intro heq; subst heq; simp at this
  · intro heq; subst heq; simp at this

theorem encodeLabel_no_sep (l : Option Bool) :
    ∀ c ∈ encodeLabel l, c ≠ '\t' ∧ c ≠ '\n' := by
  rcases l with _ | b
  · intro c hc; simp [encodeLabel] at hc
  · cases b <;>
      · intro c hc
        simp [encodeLabel] at hc
        subst hc
        exact ⟨by decide, by decide⟩

theorem encodeLine_no_nl {r : IngestedRecord} (h : wfRec r = true) :
    ∀ c ∈ encodeLine r, c ≠ '\n' := by
  unfold wfRec at h
  have h1 := Bool.and_eq_true_iff.mp h
  have h2 := Bool.and_eq_true_iff.mp h1.1
  have h3 := Bool.and_eq_true_iff.mp h2.1
  intro c hc
  unfold encodeLine at hc
  rcases List.mem_append.mp hc with hm | hm
  · exact (wfField_ne h3.1 c hm).2
  rcases List.mem_cons.mp hm with rfl | hm
  · decide
  rcases List.mem_append.mp hm with hm | hm
  · exact (wfField_ne h3.2 c hm).2
  rcases List.mem_cons.mp hm with rfl | hm
  · decide
  rcases List.mem_append.mp hm with hm | hm
  · exact (wfField_ne h2.2 c hm).2
  rcases List.mem_cons.mp hm with rfl | hm
  · decide
  rcases List.mem_append.mp hm with hm | hm
  · exact (wfField_ne h1.2 c hm).2
  rcases List.mem_cons.mp hm with rfl | hm
  · decide
  · exact (encodeLabel_no_sep r.label c hm).2

theorem decodeLine_encodeLine {r : IngestedRecord} (h : wfRec r = true) :
    decodeLine (encodeLine r) = some r := by
  unfold wfRec at h
  have h1 := Bool.and_eq_true_iff.mp h
  have h2 := Bool.and_eq_true_iff.mp h1.1
  have h3 := Bool.and_eq_true_iff.mp h2.1
  unfold decodeLine encodeLine
  rw [splitOnChar_append (fun c hc => (wfField_ne h3.1 c hc).1),
    splitOnChar_append (fun c hc => (wfField_ne h3.2 c hc).1),
    splitOnChar_append (fun c hc => (wfField_ne h2.2 c hc).1),
    splitOnChar_append (fun c hc => (wfField_ne h1.2 c hc).1),
    splitOnChar_no_sep (fun c hc => (encodeLabel_no_sep r.label c hc).1)]
  rcases r with ⟨a, b, c, d, l⟩
  rcases l with _ | b' <;> try rfl
  cases b' <;> rfl

theorem splitOnChar_encodeStore {recs : List IngestedRecord}
    (h : ∀ r ∈ recs, wfRec r = true) :
    splitOnChar '\n' (encodeStore recs) = recs.map encodeLine ++ [[]] := by
  induction recs with
  | nil => rfl
  | cons r rs ih =>
      have hr := h r (List.mem_cons_self r rs)
      have hrs : ∀ x ∈ rs, wfRec x = true :=
        fun x hx => h x (List.mem_cons_of_mem r hx)
      show splitOnChar '\n' (encodeLine r ++ '\n' :: encodeStore rs) = _
      rw [splitOnChar_append (encodeLine_no_nl hr), ih hrs]
      rfl

theorem decodeLines_map {recs : List IngestedRecord}
    (h : ∀ r ∈ recs, wfRec r = true) :
    decodeLines (recs.map encodeLine) = some recs := by
  induction recs with
  | nil => rfl
  | cons r rs ih =>
      have hr := h r (List.mem_cons_self r rs)
      have hrs : ∀ x ∈ rs, wfRec x = true :=
        fun x hx => h x (List.mem_cons_of_mem r hx)
      simp only [List.map_cons, decodeLines, decodeLine_encodeLine hr, ih hrs]

theorem decodeStore_encodeStore {recs : List IngestedRecord}
    (h : ∀ r ∈ recs, wfRec r = true) :
    decodeStore (encodeStore recs) = some recs := by
  unfold decodeStore
  rw [splitOnChar_encodeStore h]
  simp only [List.getLast?_concat, List.dropLast_concat, if_pos rfl]
  exact decodeLines_map h

theorem step_halted {cfg : Config} {s : RunState} {r : Option PoolError}
    (hph : s.phase = Phase.Halted r) : step cfg s = s := by
  unfold step
  rw [hph]

theorem step_selecting_done {cfg : Config} {s : RunState}
    (hph : s.phase = Phase.Selecting) (hcnt : cfg.count ≤ s.written) :
    step cfg s = { s with phase := Phase.Halted none } := by
  unfold step
  rw [hph]
  rw [if_pos hcnt]

theorem step_selecting_ok {cfg : Config} {s : RunState} {p' : Pool}
    {c : Credential} (hph : s.phase = Phase.Selecting)
    (hcnt : s.written < cfg.count)
    (hsel : selectFrom cfg.now s.skipped s.pool = (p', Except.ok c)) :
    step cfg s = { s with pool := p', phase := Phase.Executing c 0 } := by
  unfold step
  rw [hph]
  rw [if_neg (by omega), hsel]

theorem step_selecting_err {cfg : Config} {s : RunState} {p' : Pool}
    {e : PoolError} (hph : s.phase = Phase.Selecting)
    (hcnt : s.written < cfg.count)
    (hsel : selectFrom cfg.now s.skipped s.pool = (p', Except.error e)) :
    step cfg s = { s with pool := p', phase := Phase.Halted (some e) } := by
  unfold step
  rw [hph]
  rw [if_neg (by omega), hsel]

theorem step_exec_env_nil {cfg : Config} {s : RunState} {c : Credential}
    {r : Nat} (hph : s.phase = Phase.Executing c r) (henv : s.env = []) :
    step cfg s = { s with phase := Phase.Halted none } := by
  unfold step
  rw [hph, henv]

theorem step_exec_success {cfg : Config} {s : RunState} {c : Credential}
    {r : Nat} {resp : HttpResult} {env' : List HttpResult}
    {posts : List RawPost} (hph : s.phase = Phase.Executing c r)
    (henv : s.env = resp :: env')
    (hout : classify cfg.now resp = Outcome.Success posts) :
    step cfg s =
      { s with env := env',
               attempts := s.attempts ++
                 [mkAttempt cfg c.identifier (Outcome.Success posts)],
               phase := Phase.Writing c posts } := by
  unfold step
  rw [hph, henv]
  simp only [hout]

theorem step_exec_rl {cfg : Config} {s : RunState} {c : Credential}
    {r : Nat} {resp : HttpResult} {env' : List HttpResult} {rt : Nat}
    (hph : s.phase = Phase.Executing c r) (henv : s.env = resp :: env')
    (hout : classify cfg.now resp = Outcome.RateLimited rt) :
    step cfg s =
      { s with env := env',
               attempts := s.attempts ++
                 [mkAttempt cfg c.identifier (Outcome.RateLimited rt)],
               pool := mark_rate_limited c.identifier rt s.pool,
               phase := Phase.Selecting } := by
  unfold step
  rw [hph, henv]
  simp only [hout]

theorem step_exec_retry {cfg : Config} {s : RunState} {c : Credential}
    {r : Nat} {resp : HttpResult} {env' : List HttpResult} {d : String}
    (hph : s.phase = Phase.Executing c r) (henv : s.env = resp :: env')
    (hout : classify cfg.now resp = Outcome.RetryableError d)
    (hr : r < cfg.maxRetries) :
    step cfg s =
      { s with env := env',
               attempts := s.attempts ++
                 [mkAttempt cfg c.identifier (Outcome.RetryableError d)],
               phase := Phase.Executing c (r + 1),
               sleeps := s.sleeps ++ [backoffDelay r] } := by
  unfold step
  rw [hph, henv]
  simp only [hout]
  rw [if_pos hr]

theorem step_exec_retry_exhausted {cfg : Config} {s : RunState}
    {c : Credential} {r : Nat} {resp : HttpResult} {env' : List HttpResult}
    {d : String} (hph : s.phase = Phase.Executing c r)
    (henv : s.env = resp :: env')
    (hout : classify cfg.now resp = Outcome.RetryableError d)
    (hr : ¬(r < cfg.maxRetries)) :
    step cfg s =
      { s with env := env',
               attempts := s.attempts ++
                 [mkAttempt cfg c.identifier (Outcome.RetryableError d)],
               pool := mark_healthy c.identifier s.pool,
               skipped := s.skipped ++ [c.identifier],
               phase := Phase.Selecting } := by
  unfold step
  rw [hph, henv]
  simp only [hout]
  rw [if_neg hr]

theorem step_exec_fatal {cfg : Config} {s : RunState} {c : Credential}
    {r : Nat} {resp : HttpResult} {env' : List HttpResult} {d : String}
    (hph : s.phase = Phase.Executing c r) (henv : s.env = resp :: env')
    (hout : classify cfg.now resp = Outcome.FatalError d) :
    step cfg s =
      { s with env := env',
               attempts := s.attempts ++
                 [mkAttempt cfg c.identifier (Outcome.FatalError d)],
               pool := mark_healthy c.identifier s.pool,
               skipped := s.skipped ++ [c.identifier],
               phase := Phase.Selecting } := by
  unfold step
  rw [hph, henv]
  simp only [hout]

theorem step_writing_nil {cfg : Config} {s : RunState} {c : Credential}
    (hph : s.phase = Phase.Writing c []) :
    step cfg s = { s with pool := mark_healthy c.identifier s.pool,
                          phase := Phase.Selecting } := by
  unfold step
  rw [hph]

theorem step_writing_done {cfg : Config} {s : RunState} {c : Credential}
    {post : RawPost} {rest : List RawPost}
    (hph : s.phase = Phase.Writing c (post :: rest))
    (hcnt : cfg.count ≤ s.written) :
    step cfg s = { s with phase := Phase.Halted none } := by
  unfold step
  simp only [hph]
  rw [if_pos hcnt]

theorem step_writing_ok {cfg : Config} {s : RunState} {c : Credential}
    {post : RawPost} {rest : List RawPost} {w' : Writer}
    (hph : s.phase = Phase.Writing c (post :: rest))
    (hcnt : s.written < cfg.count)
    (happ : writerAppend s.writer (mkRecord post) = Except.ok w') :
    step cfg s =
      { s with writer := w', written := s.written + 1,
               successLog := s.successLog ++ [mkRecord post],
               phase := Phase.Writing c rest } := by
  unfold step
  simp only [hph]
  rw [if_neg (by omega)]
  simp only [happ]

theorem step_writing_dup {cfg : Config} {s : RunState} {c : Credential}
    {post : RawPost} {rest : List RawPost} {e : WriteError}
    (hph : s.phase = Phase.Writing c (post :: rest))
    (hcnt : s.written < cfg.count)
    (happ : writerAppend s.writer (mkRecord post) = Except.error e) :
    step cfg s =
      { s with skippedCount := s.skippedCount + 1,
               phase := Phase.Writing c rest } := by
  unfold step
  simp only [hph]
  rw [if_neg (by omega)]
  simp only [happ]

/-- C10: when the caller does not give a per-call result count the
pipeline requests exactly 1 post per call, and it never requests more
than 10 per call — 10 is the cap (the configured maximum), 1 is the
default request size. -/
theorem resultsPerCall_defaults :
    resolveResultsPerCall none = 1 ∧
    defaultResultsPerCall = 1 ∧
    maxResultsCap = 10 ∧
    (∀ n, resolveResultsPerCall (some n) ≤ 10) ∧
    (∀ n, n ≤ 10 → resolveResultsPerCall (some n) = n) := by
  refine ⟨rfl, rfl, rfl, ?_, ?_⟩
  · intro n
    exact Nat.min_le_right _ _
  · intro n h
    unfold resolveResultsPerCall maxResultsCap
    simp only [Option.getD_some]
    exact Nat.min_eq_left h

/-- Witness for C10 at concrete request sizes. -/
theorem resultsPerCall_defaults_witness :
    resolveResultsPerCall (some 5) = 5 ∧ resolveResultsPerCall (some 99) ≤ 10 :=
  ⟨resultsPerCall_defaults.2.2.2.2 5 (by decide),
   resultsPerCall_defaults.2.2.2.1 99⟩

theorem runSteps_halted {cfg : Config} {s : RunState}
    (h : s.isHalted = true) : ∀ n, runSteps cfg n s = s := by
  intro n
  cases n with
  | zero => rfl
  | succ m => simp [runSteps, h]

/-- C3: when every credential is currently rate limited (its window still
open) at run start, the run writes nothing — the destination store is
returned unchanged — and terminates with `AllCredentialsRateLimited`
whose earliest reset time is non-null. -/
theorem allRateLimited_run (creds : List Credential) (cfg : Config)
    (store : List Char) (env : List HttpResult) (fuel : Nat)
    (hne : creds ≠ []) (hcnt : 0 < cfg.count) (hfuel : 0 < fuel)
    (hrl : ∀ c ∈ creds, c.state = CredState.RateLimited ∧
      ∃ rt, c.reset_at = some rt ∧ cfg.now < rt) :
    ingest creds cfg store env fuel =
      IngestResult.Completed
        { written := 0, skipped := 0,
          halted_reason := some (PoolError.AllCredentialsRateLimited
            (earliestReset creds)) }
        store ∧
    earliestReset creds ≠ none := by
  have hrefresh : creds.map (refreshCred cfg.now) = creds := by
    apply map_fixed
    intro c hc
    obtain ⟨hst, rt, hra, hlt⟩ := hrl c hc
    exact refreshCred_of_future cfg.now c rt hst hra hlt
  have hpool : ∀ k, (⟨creds, k⟩ : Pool).creds = creds := fun _ => rfl
  have hfind : (rotateFrom (0 % creds.length)
      (creds.map (refreshCred cfg.now))).find? (eligible []) = none := by
    apply List.find?_eq_none.mpr
    intro c hc
    have hc' : c ∈ creds := by
      rw [hrefresh] at hc
      exact mem_rotateFrom.mp hc
    intro helig
    have := (eligible_nil_iff c).mp helig
    rw [(hrl c hc').1] at this
    exact CredState.noConfusion this
  have hsel : selectFrom cfg.now [] (⟨creds, 0⟩ : Pool) =
      ({ creds := creds, cursor := 0 },
       Except.error (PoolError.AllCredentialsRateLimited
         (earliestReset creds))) := by
    have := @selectFrom_find_none cfg.now [] ⟨creds, 0⟩
      (by simpa [hrefresh] using hfind)
    simpa [hrefresh] using this
  have hstep : step cfg (initState creds store env) =
      { initState creds store env with
        pool := { creds := creds, cursor := 0 },
        phase := Phase.Halted (some (PoolError.AllCredentialsRateLimited
          (earliestReset creds))) } := by
    show step cfg (initState creds store env) = _
    unfold step initState
    simp only
    rw [if_neg (by omega)]
    rw [hsel]
  have hrun : runSteps cfg fuel (initState creds store env) =
      { initState creds store env with
        pool := { creds := creds, cursor := 0 },
        phase := Phase.Halted (some (PoolError.AllCredentialsRateLimited
          (earliestReset creds))) } := by
    cases fuel with
    | zero => omega
    | succ m =>
        show runSteps cfg (m + 1) _ = _
        unfold runSteps
        rw [if_neg (by simp [initState, RunState.isHalted])]
        rw [hstep]
        exact runSteps_halted (by simp [RunState.isHalted]) m
  constructor
  · unfold ingest
    rw [if_neg (by simpa using hne)]
    simp only [hrun]
    rfl
  · exact earliestReset_isSome hne (fun c hc => by
      obtain ⟨_, rt, hra, _⟩ := hrl c hc
      exact ⟨rt, hra⟩)

/-- Witness for C3 at a concrete one-credential pool, all rate limited. -/
theorem allRateLimited_run_witness :
    ingest [wCredRL] wCfg [] [] 1 =
      IngestResult.Completed
        { written := 0, skipped := 0,
          halted_reason := some (PoolError.AllCredentialsRateLimited
            (earliestReset [wCredRL])) }
        [] ∧
    earliestReset [wCredRL] ≠ none :=
  allRateLimited_run [wCredRL] wCfg [] [] 1 (by decide) (by decide) (by decide)
    (fun c hc => by
      simp only [List.mem_singleton] at hc
      subst hc
      exact ⟨rfl, 5, rfl, by decide⟩)

theorem rotateFrom_zero (l : List Credential) : rotateFrom 0 l = l := by
  simp [rotateFrom]

theorem cursorOf_head (c : Credential) (l : List Credential) :
    cursorOf c.identifier (c :: l) = 0 := by
  simp [cursorOf, List.findIdx_cons]

/-- C2: when the request on healthy credential A comes back rate limited
while credential B is healthy, the very next credential selected is B,
and at that point the attempt log holds exactly one entry — a
`RateLimited` attempt for A — so exactly one `RateLimited` entry for A
and none for B precede B's first use. -/
theorem rotation_correct (ia ib : Nat) (sa sb : String) (ra rb : Option Nat)
    (cfg : Config) (store : List Char) (resp : HttpResult)
    (env' : List HttpResult) (rt : Nat)
    (hne : ia ≠ ib) (hcnt : 0 < cfg.count)
    (hclass : classify cfg.now resp = Outcome.RateLimited rt)
    (hrt : cfg.now < rt) :
    (rotationScenario ia ib sa sb ra rb cfg store resp env').phase =
      Phase.Executing ⟨ib, sb, CredState.Active, rb⟩ 0 ∧
    (rotationScenario ia ib sa sb ra rb cfg store resp env').attempts =
      [mkAttempt cfg ia (Outcome.RateLimited rt)] ∧
    (((rotationScenario ia ib sa sb ra rb cfg store resp env').attempts.filter
        (fun a => a.credential_id == ia && isRLOutcome a.outcome)).length
      = 1) ∧
    ((rotationScenario ia ib sa sb ra rb cfg store resp env').attempts.filter
        (fun a => a.credential_id == ib)) = [] := by
  have hne' : ¬(ib = ia) := fun h => hne h.symm
  have hmap1 : ([⟨ia, sa, CredState.Active, ra⟩,
      ⟨ib, sb, CredState.Active, rb⟩] : List Credential).map
        (refreshCred cfg.now) =
      [⟨ia, sa, CredState.Active, ra⟩, ⟨ib, sb, CredState.Active, rb⟩] := by
    simp only [List.map_cons, List.map_nil]
    rw [refreshCred_of_not_rl cfg.now _ (fun h => CredState.noConfusion h),
      refreshCred_of_not_rl cfg.now _ (fun h => CredState.noConfusion h)]
  have hsel1 : selectFrom cfg.now []
      (⟨[⟨ia, sa, CredState.Active, ra⟩, ⟨ib, sb, CredState.Active, rb⟩],
        0⟩ : Pool) =
      (⟨[⟨ia, sa, CredState.Active, ra⟩, ⟨ib, sb, CredState.Active, rb⟩], 0⟩,
       Except.ok ⟨ia, sa, CredState.Active, ra⟩) := by
    have hfind1 : (rotateFrom (0 % ([⟨ia, sa, CredState.Active, ra⟩,
        ⟨ib, sb, CredState.Active, rb⟩] : List Credential).length)
        (([⟨ia, sa, CredState.Active, ra⟩,
          ⟨ib, sb, CredState.Active, rb⟩] : List Credential).map
            (refreshCred cfg.now))).find? (eligible []) =
        some ⟨ia, sa, CredState.Active, ra⟩ := by
      rw [hmap1, Nat.zero_mod, rotateFrom_zero]
      exact List.find?_cons_of_pos _ (by simp [eligible])
    rw [selectFrom_find_some hfind1, hmap1]
    rw [cursorOf_head (⟨ia, sa, CredState.Active, ra⟩ : Credential)
      [⟨ib, sb, CredState.Active, rb⟩]]
  have h1 : step cfg (initState
      [⟨ia, sa, CredState.Active, ra⟩, ⟨ib, sb, CredState.Active, rb⟩]
      store (resp :: env')) =
      { pool := ⟨[⟨ia, sa, CredState.Active, ra⟩,
          ⟨ib, sb, CredState.Active, rb⟩], 0⟩,
        skipped := [], phase := Phase.Executing ⟨ia, sa, CredState.Active, ra⟩ 0,
        written := 0, skippedCount := 0, writer := openWriter store,
        attempts := [], successLog := [], sleeps := [],
        env := resp :: env' } :=
    step_selecting_ok rfl hcnt hsel1
  have hmark : mark_rate_limited ia rt
      (⟨[⟨ia, sa, CredState.Active, ra⟩, ⟨ib, sb, CredState.Active, rb⟩],
        0⟩ : Pool) =
      (⟨[⟨ia, sa, CredState.RateLimited, some rt⟩,
        ⟨ib, sb, CredState.Active, rb⟩], 0⟩ : Pool) := by
    unfold mark_rate_limited setCred
    simp [hne']
  have h2 : step cfg
      ({ pool := ⟨[⟨ia, sa, CredState.Active, ra⟩,
           ⟨ib, sb, CredState.Active, rb⟩], 0⟩,
         skipped := [], phase := Phase.Executing ⟨ia, sa, CredState.Active, ra⟩ 0,
         written := 0, skippedCount := 0, writer := openWriter store,
         attempts := [], successLog := [], sleeps := [],
         env := resp :: env' } : RunState) =
      { pool := mark_rate_limited ia rt
          ⟨[⟨ia, sa, CredState.Active, ra⟩,
            ⟨ib, sb, CredState.Active, rb⟩], 0⟩,
        skipped := [], phase := Phase.Selecting,
        written := 0, skippedCount := 0, writer := openWriter store,
        attempts := [mkAttempt cfg ia (Outcome.RateLimited rt)],
        successLog := [], sleeps := [], env := env' } :=
    step_exec_rl rfl rfl hclass
  rw [hmark] at h2
  have hmap3 : ([⟨ia, sa, CredState.RateLimited, some rt⟩,
      ⟨ib, sb, CredState.Active, rb⟩] : List Credential).map
        (refreshCred cfg.now) =
      [⟨ia, sa, CredState.RateLimited, some rt⟩,
        ⟨ib, sb, CredState.Active, rb⟩] := by
    simp only [List.map_cons, List.map_nil]
    rw [refreshCred_of_future cfg.now _ rt rfl rfl hrt,
      refreshCred_of_not_rl cfg.now _ (fun h => CredState.noConfusion h)]
  have hsel3 : selectFrom cfg.now []
      (⟨[⟨ia, sa, CredState.RateLimited, some rt⟩,
        ⟨ib, sb, CredState.Active, rb⟩], 0⟩ : Pool) =
      (⟨[⟨ia, sa, CredState.RateLimited, some rt⟩,
        ⟨ib, sb, CredState.Active, rb⟩], 1⟩,
       Except.ok ⟨ib, sb, CredState.Active, rb⟩) := by
    have hfind3 : (rotateFrom (0 % ([⟨ia, sa, CredState.RateLimited, some rt⟩,
        ⟨ib, sb, CredState.Active, rb⟩] : List Credential).length)
        (([⟨ia, sa, CredState.RateLimited, some rt⟩,
          ⟨ib, sb, CredState.Active, rb⟩] : List Credential).map
            (refreshCred cfg.now))).find? (eligible []) =
        some ⟨ib, sb, CredState.Active, rb⟩ := by
      rw [hmap3, Nat.zero_mod, rotateFrom_zero]
      rw [List.find?_cons_of_neg _ (by simp [eligible])]
      exact List.find?_cons_of_pos _ (by simp [eligible])
    rw [selectFrom_find_some hfind3, hmap3]
    have hcur : cursorOf (⟨ib, sb, CredState.Active, rb⟩ : Credential).identifier
        [⟨ia, sa, CredState.RateLimited, some rt⟩,
          ⟨ib, sb, CredState.Active, rb⟩] = 1 := by
      simp [cursorOf, List.findIdx_cons, decide_eq_false hne]
    rw [hcur]
  have h3 : step cfg
      ({ pool := ⟨[⟨ia, sa, CredState.RateLimited, some rt⟩,
           ⟨ib, sb, CredState.Active, rb⟩], 0⟩,
         skipped := [], phase := Phase.Selecting,
         written := 0, skippedCount := 0, writer := openWriter store,
         attempts := [mkAttempt cfg ia (Outcome.RateLimited rt)],
         successLog := [], sleeps := [], env := env' } : RunState) =
      { pool := ⟨[⟨ia, sa, CredState.RateLimited, some rt⟩,
          ⟨ib, sb, CredState.Active, rb⟩], 1⟩,
        skipped := [], phase := Phase.Executing ⟨ib, sb, CredState.Active, rb⟩ 0,
        written := 0, skippedCount := 0, writer := openWriter store,
        attempts := [mkAttempt cfg ia (Outcome.RateLimited rt)],
        successLog := [], sleeps := [], env := env' } :=
    step_selecting_ok rfl hcnt hsel3
  have hall : rotationScenario ia ib sa sb ra rb cfg store resp env' =
      { pool := ⟨[⟨ia, sa, CredState.RateLimited, some rt⟩,
          ⟨ib, sb, CredState.Active, rb⟩], 1⟩,
        skipped := [], phase := Phase.Executing ⟨ib, sb, CredState.Active, rb⟩ 0,
        written := 0, skippedCount := 0, writer := openWriter store,
        attempts := [mkAttempt cfg ia (Outcome.RateLimited rt)],
        successLog := [], sleeps := [], env := env' } := by
    unfold rotationScenario
    rw [h1, h2, h3]
  rw [hall]
  refine ⟨rfl, rfl, ?_, ?_⟩
  · simp [isRLOutcome, mkAttempt]
  · have hbeq : (ia == ib) = false := beq_eq_false_iff_ne.mpr hne
    simp [List.filter, mkAttempt, hbeq]

/-- C6: under the default retry cap of 3, a credential whose calls keep
returning `RetryableError` is retried on the same credential with
strictly increasing backoff; after the initial attempt plus three
retries it is skipped for the remainder of the run (skipped credentials
are never eligible again) while staying `Active` — never `RateLimited` —
and the run itself continues rather than failing. -/
theorem retry_policy (ia : Nat) (sa : String) (ra : Option Nat)
    (cfg : Config) (store : List Char) (resp : HttpResult)
    (env' : List HttpResult) (d : String)
    (hcnt : 0 < cfg.count) (hcap : cfg.maxRetries = defaultMaxRetries)
    (hclass : classify cfg.now resp = Outcome.RetryableError d) :
    (retryScenario ia sa ra cfg store resp env').phase = Phase.Selecting ∧
    (retryScenario ia sa ra cfg store resp env').skipped = [ia] ∧
    (retryScenario ia sa ra cfg store resp env').pool.creds =
      [⟨ia, sa, CredState.Active, none⟩] ∧
    (retryScenario ia sa ra cfg store resp env').attempts =
      List.replicate (defaultMaxRetries + 1)
        (mkAttempt cfg ia (Outcome.RetryableError d)) ∧
    (retryScenario ia sa ra cfg store resp env').sleeps =
      [backoffDelay 0, backoffDelay 1, backoffDelay 2] ∧
    (∀ r, backoffDelay r < backoffDelay (r + 1)) ∧
    defaultMaxRetries = 3 ∧
    (∀ (excl : List Nat) (c : Credential), c.identifier ∈ excl →
      eligible excl c = false) := by
  have hmapA : ([⟨ia, sa, CredState.Active, ra⟩] : List Credential).map
      (refreshCred cfg.now) = [⟨ia, sa, CredState.Active, ra⟩] := by
    simp only [List.map_cons, List.map_nil]
    rw [refreshCred_of_not_rl cfg.now _ (fun h => CredState.noConfusion h)]
  have hselA : selectFrom cfg.now []
      (⟨[⟨ia, sa, CredState.Active, ra⟩], 0⟩ : Pool) =
      (⟨[⟨ia, sa, CredState.Active, ra⟩], 0⟩,
       Except.ok ⟨ia, sa, CredState.Active, ra⟩) := by
    have hfind : (rotateFrom
        (0 % ([⟨ia, sa, CredState.Active, ra⟩] : List Credential).length)
        (([⟨ia, sa, CredState.Active, ra⟩] : List Credential).map
          (refreshCred cfg.now))).find? (eligible []) =
        some ⟨ia, sa, CredState.Active, ra⟩ := by
      rw [hmapA, Nat.zero_mod, rotateFrom_zero]
      exact List.find?_cons_of_pos _ (by simp [eligible])
    rw [selectFrom_find_some hfind, hmapA]
    rw [cursorOf_head (⟨ia, sa, CredState.Active, ra⟩ : Credential) []]
  have h1 : step cfg (initState [⟨ia, sa, CredState.Active, ra⟩] store
      (resp :: resp :: resp :: resp :: env')) =
      { pool := ⟨[⟨ia, sa, CredState.Active, ra⟩], 0⟩, skipped := [],
        phase := Phase.Executing ⟨ia, sa, CredState.Active, ra⟩ 0,
        written := 0, skippedCount := 0, writer := openWriter store,
        attempts := [], successLog := [], sleeps := [],
        env := resp :: resp :: resp :: resp :: env' } :=
    step_selecting_ok rfl hcnt hselA
  have h2 : step cfg
      ({ pool := ⟨[⟨ia, sa, CredState.Active, ra⟩], 0⟩, skipped := [],
         phase := Phase.Executing ⟨ia, sa, CredState.Active, ra⟩ 0,
         written := 0, skippedCount := 0, writer := openWriter store,
         attempts := [], successLog := [], sleeps := [],
         env := resp :: resp :: resp :: resp :: env' } : RunState) =
      { pool := ⟨[⟨ia, sa, CredState.Active, ra⟩], 0⟩, skipped := [],
        phase := Phase.Executing ⟨ia, sa, CredState.Active, ra⟩ 1,
        written := 0, skippedCount := 0, writer := openWriter store,
        attempts := [mkAttempt cfg ia (Outcome.RetryableError d)],
        successLog := [], sleeps := [backoffDelay 0],
        env := resp :: resp :: resp :: env' } :=
    step_exec_retry rfl rfl hclass (by rw [hcap]; decide)
  have h3 : step cfg
      ({ pool := ⟨[⟨ia, sa, CredState.Active, ra⟩], 0⟩, skipped := [],
         phase := Phase.Executing ⟨ia, sa, CredState.Active, ra⟩ 1,
         written := 0, skippedCount := 0, writer := openWriter store,
         attempts := [mkAttempt cfg ia (Outcome.RetryableError d)],
         successLog := [], sleeps := [backoffDelay 0],
         env := resp :: resp :: resp :: env' } : RunState) =
      { pool := ⟨[⟨ia, sa, CredState.Active, ra⟩], 0⟩, skipped := [],
        phase := Phase.Executing ⟨ia, sa, CredState.Active, ra⟩ 2,
        written := 0, skippedCount := 0, writer := openWriter store,
        attempts := List.replicate 2 (mkAttempt cfg ia (Outcome.RetryableError d)),
        successLog := [], sleeps := [backoffDelay 0, backoffDelay 1],
        env := resp :: resp :: env' } :=
    step_exec_retry rfl rfl hclass (by rw [hcap]; decide)
  have h4 : step cfg
      ({ pool := ⟨[⟨ia, sa, CredState.Active, ra⟩], 0⟩, skipped := [],
         phase := Phase.Executing ⟨ia, sa, CredState.Active, ra⟩ 2,
         written := 0, skippedCount := 0, writer := openWriter store,
         attempts := List.replicate 2 (mkAttempt cfg ia (Outcome.RetryableError d)),
         successLog := [], sleeps := [backoffDelay 0, backoffDelay 1],
         env := resp :: resp :: env' } : RunState) =
      { pool := ⟨[⟨ia, sa, CredState.Active, ra⟩], 0⟩, skipped := [],
        phase := Phase.Executing ⟨ia, sa, CredState.Active, ra⟩ 3,
        written := 0, skippedCount := 0, writer := openWriter store,
        attempts := List.replicate 3 (mkAttempt cfg ia (Outcome.RetryableError d)),
        successLog := [],
        sleeps := [backoffDelay 0, backoffDelay 1, backoffDelay 2],
        env := resp :: env' } :=
    step_exec_retry rfl rfl hclass (by rw [hcap]; decide)
  have h5 : step cfg
      ({ pool := ⟨[⟨ia, sa, CredState.Active, ra⟩], 0⟩, skipped := [],
         phase := Phase.Executing ⟨ia, sa, CredState.Active, ra⟩ 3,
         written := 0, skippedCount := 0, writer := openWriter store,
         attempts := List.replicate 3 (mkAttempt cfg ia (Outcome.RetryableError d)),
         successLog := [],
         sleeps := [backoffDelay 0, backoffDelay 1, backoffDelay 2],
         env := resp :: env' } : RunState) =
      { pool := mark_healthy ia ⟨[⟨ia, sa, CredState.Active, ra⟩], 0⟩,
        skipped := [ia],
        phase := Phase.Selecting,
        written := 0, skippedCount := 0, writer := openWriter store,
        attempts := List.replicate 4 (mkAttempt cfg ia (Outcome.RetryableError d)),
        successLog := [],
        sleeps := [backoffDelay 0, backoffDelay 1, backoffDelay 2],
        env := env' } :=
    step_exec_retry_exhausted rfl rfl hclass (by rw [hcap]; decide)
  have hmh : mark_healthy ia
      (⟨[⟨ia, sa, CredState.Active, ra⟩], 0⟩ : Pool) =
      (⟨[⟨ia, sa, CredState.Active, none⟩], 0⟩ : Pool) := by
    unfold mark_healthy setCred
    simp
  rw [hmh] at h5
  have hall : retryScenario ia sa ra cfg store resp env' =
      { pool := ⟨[⟨ia, sa, CredState.Active, none⟩], 0⟩,
        skipped := [ia], phase := Phase.Selecting,
        written := 0, skippedCount := 0, writer := openWriter store,
        attempts := List.replicate 4 (mkAttempt cfg ia (Outcome.RetryableError d)),
        successLog := [],
        sleeps := [backoffDelay 0, backoffDelay 1, backoffDelay 2],
        env := env' } := by
    unfold retryScenario
    rw [h1, h2, h3, h4, h5]
  rw [hall]
  refine ⟨rfl, rfl, rfl, rfl, rfl, ?_, rfl, ?_⟩
  · intro r
    exact Nat.pow_lt_pow_right (by omega) (by omega)
  · intro excl c hc
    unfold eligible
    have : excl.contains c.identifier = true := by
      exact List.elem_eq_true_of_mem hc
    rw [this]
    simp

/-- Witness for C6 at a concrete credential and network failures. -/
theorem retry_policy_witness :
    (retryScenario 1 "a" none wCfg [] (HttpResult.networkFailure wDetail)
        []).phase = Phase.Selecting ∧
    (retryScenario 1 "a" none wCfg [] (HttpResult.networkFailure wDetail)
        []).skipped = [1] :=
  ⟨(retry_policy 1 "a" none wCfg [] (HttpResult.networkFailure wDetail) [] wDetail
      (by decide) (by rfl) (by rfl)).1,
   (retry_policy 1 "a" none wCfg [] (HttpResult.networkFailure wDetail) [] wDetail
      (by decide) (by rfl) (by rfl)).2.1⟩

/-- Witness for C2 at a concrete two-credential pool and a concrete 429
response. -/
theorem rotation_correct_witness :
    (rotationScenario 1 2 "a" "b" none none wCfg []
        (HttpResult.response 429 (some 5) []) []).phase =
      Phase.Executing
        { identifier := 2, secret_value := "b", state := CredState.Active,
          reset_at := none } 0 :=
  (rotation_correct 1 2 "a" "b" none none wCfg []
    (HttpResult.response 429 (some 5) []) [] 5 (by decide) (by decide)
    (by rfl) (by decide)).1

theorem normalize_chars {s : List Char} {c : Char} (hc : c ∈ normalize s) :
    isAllowedChar c = true ∨ c = ' ' := by
  unfold normalize at hc
  rcases joinSpace_chars hc with ⟨t, ht, hct⟩ | hsp
  · rcases (normalizeToks_mem ht).1 with ⟨t0, rfl⟩
    exact Or.inl (mapTok_allowed t0 c hct)
  · exact Or.inr hsp

theorem normalize_wfField (s : List Char) : wfField (normalize s) = true := by
  unfold wfField
  rw [List.all_eq_true]
  intro c hc
  rcases normalize_chars hc with h | rfl
  · have ht : c ≠ '\t' := by
      intro hh; subst hh; exact absurd h (by decide)
    have hn : c ≠ '\n' := by
      intro hh; subst hh; exact absurd h (by decide)
    simp [ht, hn]
  · decide

theorem wfRec_mkRecord {p : RawPost} (h : wfPost p = true) :
    wfRec (mkRecord p) = true := by
  unfold wfPost at h
  have h1 := Bool.and_eq_true_iff.mp h
  have h2 := Bool.and_eq_true_iff.mp h1.1
  unfold wfRec mkRecord
  simp only [h2.1, h2.2, h1.2, normalize_wfField, Bool.and_self]

theorem classify_success_posts {now : Nat} {resp : HttpResult}
    {posts : List RawPost}
    (h : classify now resp = Outcome.Success posts) :
    postsOfResult resp = posts := by
  cases resp with
  | networkFailure d => exact Outcome.noConfusion h
  | response status hdr ps =>
      simp only [classify] at h
      split at h
      · injection h with h
      · split at h
        · exact Outcome.noConfusion h
        · split at h
          · exact Outcome.noConfusion h
          · exact Outcome.noConfusion h

theorem encodeStore_append_one (l : List IngestedRecord)
    (r : IngestedRecord) :
    encodeStore (l ++ [r]) = encodeStore l ++ (encodeLine r ++ ['\n']) := by
  induction l with
  | nil => simp [encodeStore]
  | cons x xs ih => simp [encodeStore, ih]

theorem contains_false_not_mem {l : List (List Char)} {a : List Char}
    (h : l.contains a = false) : a ∉ l := by
  intro hmem
  have h2 : l.contains a = true := by exact List.elem_eq_true_of_mem hmem
  rw [h2] at h
  exact Bool.noConfusion h

theorem not_mem_contains_false {l : List (List Char)} {a : List Char}
    (h : a ∉ l) : l.contains a = false := by
  cases hc : l.contains a
  · rfl
  · have h2 : a ∈ l := by exact List.mem_of_elem_eq_true hc
    exact absurd h2 h

theorem runInv_init (creds : List Credential)
    (recs0 : List IngestedRecord) (env : List HttpResult)
    (hwf : ∀ r ∈ recs0, wfRec r = true)
    (hnodup : (recs0.map (fun r => r.id)).Nodup)
    (henv : ∀ h ∈ env, ∀ p ∈ postsOfResult h, wfPost p = true) :
    RunInv recs0 (initState creds (encodeStore recs0) env) := by
  have hids : (openWriter (encodeStore recs0)).ids =
      recs0.map (fun r => r.id) := by
    unfold openWriter
    rw [decodeStore_encodeStore hwf]
    rfl
  refine ⟨?_, ?_, ?_, ?_, ?_, ?_⟩
  · simp [initState, openWriter]
  · simp only [initState, List.append_nil]
    simpa using hwf
  · intro i
    show i ∈ (openWriter (encodeStore recs0)).ids ↔ _
    rw [hids]
    simp [initState]
  · simp only [initState]
    simpa using hnodup
  · simpa [initState] using henv
  · intro c posts hph
    simp [initState] at hph

theorem runInv_step (cfg : Config) (recs0 : List IngestedRecord)
    (s : RunState) (h : RunInv recs0 s) : RunInv recs0 (step cfg s) := by
  cases hph : s.phase with
  | Halted r =>
      rw [step_halted hph]
      exact h
  | Selecting =>
      by_cases hc : cfg.count ≤ s.written
      · rw [step_selecting_done hph hc]
        exact ⟨h.store_eq, h.wf_all, h.ids_mem, h.nodup, h.env_wf,
          fun c posts hph' => Phase.noConfusion hph'⟩
      · rcases hsel : selectFrom cfg.now s.skipped s.pool with ⟨p', res⟩
        cases res with
        | ok c =>
            rw [step_selecting_ok hph (by omega) hsel]
            exact ⟨h.store_eq, h.wf_all, h.ids_mem, h.nodup, h.env_wf,
              fun c' posts hph' => Phase.noConfusion hph'⟩
        | error e =>
            rw [step_selecting_err hph (by omega) hsel]
            exact ⟨h.store_eq, h.wf_all, h.ids_mem, h.nodup, h.env_wf,
              fun c' posts hph' => Phase.noConfusion hph'⟩
  | Executing c r =>
      cases henv : s.env with
      | nil =>
          rw [step_exec_env_nil hph henv]
          exact ⟨h.store_eq, h.wf_all, h.ids_mem, h.nodup, h.env_wf,
            fun c' posts hph' => Phase.noConfusion hph'⟩
      | cons resp env' =>
          have henv' : ∀ hr ∈ env', ∀ p ∈ postsOfResult hr, wfPost p = true :=
            fun hr hhr =>
              h.env_wf hr (by rw [henv]; exact List.mem_cons_of_mem _ hhr)
          cases hout : classify cfg.now resp with
          | Success posts =>
              rw [step_exec_success hph henv hout]
              refine ⟨h.store_eq, h.wf_all, h.ids_mem, h.nodup, henv', ?_⟩
              intro c' posts' hph'
              have hp : posts' = posts := by
                injection hph' with h1 h2
                exact h2.symm
              subst hp
              have hresp := h.env_wf resp
                (by rw [henv]; exact List.mem_cons_self _ _)
              rw [classify_success_posts hout] at hresp
              exact hresp
          | RateLimited rt =>
              rw [step_exec_rl hph henv hout]
              exact ⟨h.store_eq, h.wf_all, h.ids_mem, h.nodup, henv',
                fun c' posts hph' => Phase.noConfusion hph'⟩
          | RetryableError d =>
              by_cases hr : r < cfg.maxRetries
              · rw [step_exec_retry hph henv hout hr]
                exact ⟨h.store_eq, h.wf_all, h.ids_mem, h.nodup, henv',
                  fun c' posts hph' => Phase.noConfusion hph'⟩
              · rw [step_exec_retry_exhausted hph henv hout hr]
                exact ⟨h.store_eq, h.wf_all, h.ids_mem, h.nodup, henv',
                  fun c' posts hph' => Phase.noConfusion hph'⟩
          | FatalError d =>
              rw [step_exec_fatal hph henv hout]
              exact ⟨h.store_eq, h.wf_all, h.ids_mem, h.nodup, henv',
                fun c' posts hph' => Phase.noConfusion hph'⟩
  | Writing c posts =>
      cases posts with
      | nil =>
          rw [step_writing_nil hph]
          exact ⟨h.store_eq, h.wf_all, h.ids_mem, h.nodup, h.env_wf,
            fun c' posts' hph' => Phase.noConfusion hph'⟩
      | cons post rest =>
          have hwfpost : wfPost post = true :=
            h.phase_wf c (post :: rest) hph post (List.mem_cons_self _ _)
          have hwfrest : ∀ p ∈ rest, wfPost p = true :=
            fun p hp =>
              h.phase_wf c (post :: rest) hph p (List.mem_cons_of_mem _ hp)
          by_cases hcnt : cfg.count ≤ s.written
          · rw [step_writing_done hph hcnt]
            exact ⟨h.store_eq, h.wf_all, h.ids_mem, h.nodup, h.env_wf,
              fun c' posts' hph' => Phase.noConfusion hph'⟩
          · cases happ : writerAppend s.writer (mkRecord post) with
            | ok w' =>
                rw [step_writing_ok hph (by omega) happ]
                have hcont : s.writer.ids.contains (mkRecord post).id
                    = false := by
                  cases hcc : s.writer.ids.contains (mkRecord post).id
                  · rfl
                  · unfold writerAppend at happ
                    rw [if_pos hcc] at happ
                    exact Except.noConfusion happ
                have hw' : w' =
                    { store := s.writer.store ++
                        (encodeLine (mkRecord post) ++ ['\n']),
                      ids := (mkRecord post).id :: s.writer.ids } := by
                  unfold writerAppend at happ
                  rw [if_neg (by rw [hcont]; simp)] at happ
                  injection happ with happ
                  exact happ.symm
                subst hw'
                have hnew : (mkRecord post).id ∉
                    (recs0 ++ s.successLog).map (fun r => r.id) := by
                  intro hmem
                  exact contains_false_not_mem hcont ((h.ids_mem _).mpr hmem)
                refine ⟨?_, ?_, ?_, ?_, h.env_wf, ?_⟩
                · show s.writer.store ++
                    (encodeLine (mkRecord post) ++ ['\n']) = _
                  rw [h.store_eq, ← encodeStore_append_one,
                    List.append_assoc]
                · intro x hx
                  rw [← List.append_assoc] at hx
                  rcases List.mem_append.mp hx with hx | hx
                  · exact h.wf_all x hx
                  · rw [List.mem_singleton] at hx
                    subst hx
                    exact wfRec_mkRecord hwfpost
                · intro i
                  show i ∈ (mkRecord post).id :: s.writer.ids ↔ _
                  rw [List.mem_cons, h.ids_mem i]
                  constructor
                  · rintro (rfl | hi)
                    · exact List.mem_map.mpr ⟨mkRecord post, by simp, rfl⟩
                    · rcases List.mem_map.mp hi with ⟨x, hx, rfl⟩
                      refine List.mem_map.mpr ⟨x, ?_, rfl⟩
                      simp only [List.mem_append] at hx ⊢
                      rcases hx with hx | hx
                      · exact Or.inl hx
                      · exact Or.inr (Or.inl hx)
                  · intro hi
                    rcases List.mem_map.mp hi with ⟨x, hx, rfl⟩
                    simp only [List.mem_append, List.mem_singleton] at hx
                    rcases hx with hx | hx | rfl
                    · exact Or.inr (List.mem_map.mpr
                        ⟨x, List.mem_append.mpr (Or.inl hx), rfl⟩)
                    · exact Or.inr (List.mem_map.mpr
                        ⟨x, List.mem_append.mpr (Or.inr hx), rfl⟩)
                    · exact Or.inl rfl
                · rw [← List.append_assoc, List.map_append,
                    List.nodup_append]
                  refine ⟨h.nodup, by simp, ?_⟩
                  intro a ha hb
                  simp only [List.map_cons, List.map_nil,
                    List.mem_singleton] at hb
                  subst hb
                  exact hnew ha
                · intro c' posts' hph'
                  have hp : posts' = rest := by
                    injection hph' with h1 h2
                    exact h2.symm
                  subst hp
                  exact hwfrest
            | error e =>
                rw [step_writing_dup hph (by omega) happ]
                refine ⟨h.store_eq, h.wf_all, h.ids_mem, h.nodup,
                  h.env_wf, ?_⟩
                intro c' posts' hph'
                have hp : posts' = rest := by
                  injection hph' with h1 h2
                  exact h2.symm
                subst hp
                exact hwfrest

theorem runInv_runSteps (cfg : Config) (recs0 : List IngestedRecord)
    (n : Nat) (s : RunState) (h : RunInv recs0 s) :
    RunInv recs0 (runSteps cfg n s) := by
  induction n generalizing s with
  | zero => exact h
  | succ m ih =>
      simp only [runSteps]
      by_cases hh : s.isHalted = true
      · rw [if_pos hh]
        exact h
      · rw [if_neg hh]
        exact ih _ (runInv_step cfg recs0 s h)

/-- C4: per-record atomicity — starting from a destination store holding
exactly the well-formed records `recs0`, after any number of Orchestrator
steps (that is, at every possible interruption point of the run) the
destination store still parses completely and holds exactly `recs0`
followed by the records whose writes were finalized (the success log):
no partial record is ever visible. -/
theorem append_atomic (cfg : Config) (creds : List Credential)
    (recs0 : List IngestedRecord) (env : List HttpResult) (n : Nat)
    (hwf : ∀ r ∈ recs0, wfRec r = true)
    (hnodup : (recs0.map (fun r => r.id)).Nodup)
    (henv : ∀ hr ∈ env, ∀ p ∈ postsOfResult hr, wfPost p = true) :
    decodeStore ((runSteps cfg n
        (initState creds (encodeStore recs0) env)).writer.store) =
      some (recs0 ++ (runSteps cfg n
        (initState creds (encodeStore recs0) env)).successLog) := by
  have hinv := runInv_runSteps cfg recs0 n _
    (runInv_init creds recs0 env hwf hnodup henv)
  rw [hinv.store_eq]
  exact decodeStore_encodeStore hinv.wf_all

/-- Witness for C4 at a concrete run: the store already holds one record,
the scripted 200 response carries one fresh well-formed post, and after
five machine steps the run has actually finalized that post's record —
the success log is exactly `[mkRecord wPost]` — and the store still
parses to exactly the prior record followed by the finalized one. -/
theorem append_atomic_witness :
    (runSteps wCfg 5
        (initState [wCred] (encodeStore [wRec]) [wResp])).successLog =
      [mkRecord wPost] ∧
    decodeStore ((runSteps wCfg 5
        (initState [wCred] (encodeStore [wRec]) [wResp])).writer.store) =
      some ([wRec] ++ (runSteps wCfg 5
        (initState [wCred] (encodeStore [wRec]) [wResp])).successLog) :=
  ⟨by decide,
   append_atomic wCfg [wCred] [wRec] [wResp] 5 (by decide) (by decide)
     (by decide)⟩

/-- C5: at most one stored record per id, within and across runs —
appending a fresh well-formed record succeeds and yields exactly one
stored record with that id; appending the same id again in the same run,
or in a later run that reopens the store, fails with `DuplicateRecord`;
the Orchestrator counts such a duplicate as a skip and carries on (the
run is not halted); and after any number of run steps the stored ids are
still pairwise distinct. -/
theorem duplicate_id_policy :
    (∀ (recs : List IngestedRecord) (r : IngestedRecord),
      (∀ x ∈ recs, wfRec x = true) → wfRec r = true →
      r.id ∉ recs.map (fun x => x.id) →
      writerAppend (openWriter (encodeStore recs)) r =
        Except.ok { store := encodeStore (recs ++ [r]),
                    ids := r.id :: recs.map (fun x => x.id) } ∧
      writerAppend { store := encodeStore (recs ++ [r]),
                     ids := r.id :: recs.map (fun x => x.id) } r =
        Except.error WriteError.DuplicateRecord ∧
      (((decodeStore (encodeStore (recs ++ [r]))).getD []).filter
          (fun x => x.id == r.id)).length = 1 ∧
      writerAppend (openWriter (encodeStore (recs ++ [r]))) r =
        Except.error WriteError.DuplicateRecord) ∧
    (∀ (cfg : Config) (s : RunState) (c : Credential) (post : RawPost)
        (rest : List RawPost),
      s.phase = Phase.Writing c (post :: rest) → s.written < cfg.count →
      s.writer.ids.contains (mkRecord post).id = true →
      step cfg s = { s with skippedCount := s.skippedCount + 1,
                            phase := Phase.Writing c rest }) ∧
    (∀ (cfg : Config) (creds : List Credential)
        (recs0 : List IngestedRecord) (env : List HttpResult) (n : Nat),
      (∀ x ∈ recs0, wfRec x = true) →
      (recs0.map (fun r => r.id)).Nodup →
      (∀ hr ∈ env, ∀ p ∈ postsOfResult hr, wfPost p = true) →
      (((decodeStore ((runSteps cfg n (initState creds
          (encodeStore recs0) env)).writer.store)).getD []).map
        (fun r => r.id)).Nodup) := by
  refine ⟨?_, ?_, ?_⟩
  · intro recs r hwf hr hnew
    have hwfall : ∀ x ∈ recs ++ [r], wfRec x = true := by
      intro x hx
      rcases List.mem_append.mp hx with hx | hx
      · exact hwf x hx
      · rw [List.mem_singleton] at hx
        subst hx
        exact hr
    have hopen : openWriter (encodeStore recs) =
        { store := encodeStore recs, ids := recs.map (fun x => x.id) } := by
      unfold openWriter
      rw [decodeStore_encodeStore hwf]
      rfl
    have hcf : (recs.map (fun x => x.id)).contains r.id = false :=
      not_mem_contains_false hnew
    refine ⟨?_, ?_, ?_, ?_⟩
    · rw [hopen]
      unfold writerAppend
      rw [if_neg (by rw [hcf]; simp)]
      rw [encodeStore_append_one]
    · unfold writerAppend
      rw [if_pos (by
        exact List.elem_eq_true_of_mem (List.mem_cons_self _ _))]
    · rw [decodeStore_encodeStore hwfall]
      simp only [Option.getD_some]
      rw [List.filter_append]
      have h1 : recs.filter (fun x => x.id == r.id) = [] := by
        rw [List.filter_eq_nil_iff]
        intro x hx hbeq
        have hxid : x.id = r.id := by
          exact eq_of_beq hbeq
        exact hnew (List.mem_map.mpr ⟨x, hx, hxid⟩)
      rw [h1]
      simp
    · have hopen2 : openWriter (encodeStore (recs ++ [r])) =
          { store := encodeStore (recs ++ [r]),
            ids := (recs ++ [r]).map (fun x => x.id) } := by
        unfold openWriter
        rw [decodeStore_encodeStore hwfall]
        rfl
      rw [hopen2]
      unfold writerAppend
      rw [if_pos (by
        refine List.elem_eq_true_of_mem (List.mem_map.mpr ⟨r, ?_, rfl⟩)
        exact List.mem_append.mpr (Or.inr (List.mem_singleton.mpr rfl)))]
  · intro cfg s c post rest hph hcnt hcont
    have happ : writerAppend s.writer (mkRecord post) =
        Except.error WriteError.DuplicateRecord := by
      unfold writerAppend
      rw [if_pos hcont]
    exact step_writing_dup hph hcnt happ
  · intro cfg creds recs0 env n hwf hnodup henv
    have hinv := runInv_runSteps cfg recs0 n _
      (runInv_init creds recs0 env hwf hnodup henv)
    rw [hinv.store_eq, decodeStore_encodeStore hinv.wf_all]
    simp only [Option.getD_some]
    exact hinv.nodup

/-- Witness for C5 at a concrete record over an empty store. -/
theorem duplicate_id_policy_witness :
    writerAppend
      { store := encodeStore ([] ++ [wRec]),
        ids := wRec.id :: ([] : List IngestedRecord).map (fun x => x.id) }
      wRec = Except.error WriteError.DuplicateRecord :=
  (duplicate_id_policy.1 [] wRec (by simp) (by decide) (by simp)).2.1

end CrisisMonitor
